import Mathlib

/-!
# The expense CSV reader of `csv/csv.go`

A shallow embedding of `readIndexes`, `validateIndexes`, `entryFromRecord` and `read`, together
with the parts of the Go standard library they call (`strconv.ParseFloat`, float64 addition,
`big.NewFloat`, `big.Float.Cmp`, the `%f` and `%d` verbs of `fmt`), and the properties proved
about them.

Conventions of the embedding:
* a Go `string` is a Lean `String` (so only valid UTF-8 texts are considered);
* a Go `int` holding a column position is a `Nat` (positions are `0` or `i + 1`);
* a Go `error` is the text returned by its `Error()` method;
* the tables of `strconv.IsPrint` for the code points above U+00FF are a parameter
  (`PrintTable`): they only shape the text of the error of `strconv.ParseFloat`;
* a `*csv.Reader` is the list of the results its successive `Read()` calls give, the end of the
  list being `io.EOF`;
* a `float64` is a value of `F64`, with exact integer arithmetic and IEEE 754 rounding to nearest,
  ties to even.
-/

namespace Csv

/-! ## Results of Go functions -/

deriving instance DecidableEq for Except

/-- Result of a Go function returning `(T, error)`: a value, an error (given by its message), or
an abnormal stop of the program (a run-time panic, such as an index out of range). -/
inductive Outcome (α : Type) where
  | ok (a : α)
  | error (msg : String)
  | crash
  deriving DecidableEq, Repr

/-! ## float64 -/

/-- A float64 value: not-a-number, an infinity, or the finite value `(-1)^neg * m * 2^e`.
The functions below produce finite values in canonical form: `m < 2^53`, `-1074 ≤ e ≤ 971`, and
`2^52 ≤ m` unless `e = -1074`. -/
inductive F64 where
  | nan
  | inf (neg : Bool)
  | fin (neg : Bool) (m : Nat) (e : Int)
  deriving DecidableEq, Repr

namespace F64

/-- The float64 `+0`, the zero value of a Go `float64` variable. -/
def zero : F64 := .fin false 0 (-1074)

/-- The float64 `100.0` (`100 = 7036874417766400 * 2^-46`, with `2^52 ≤ 7036874417766400 < 2^53`). -/
def hundred : F64 := .fin false 7036874417766400 (-46)

/-- Number of halvings that bring `n` below `2`, at most `fuel` of them. -/
def log2Fuel : Nat → Nat → Nat
  | 0, _ => 0
  | fuel + 1, n => if n < 2 then 0 else log2Fuel fuel (n / 2) + 1

/-- Largest `k` with `2^k ≤ n`, for `n > 0`. -/
def log2 (n : Nat) : Nat := log2Fuel n n

/-- Largest `k` with `2^k ≤ num / den`, for `num, den > 0`. -/
def floorLog2 (num den : Nat) : Int :=
  let l : Int := (log2 num : Int) - (log2 den : Int)
  if 0 ≤ l then
    if den * 2 ^ l.toNat ≤ num then l else l - 1
  else
    if den ≤ num * 2 ^ (-l).toNat then l else l - 1

/-- The float64 nearest to `(-1)^neg * num / den` (ties to even), an infinity when the rounded
value exceeds the largest finite float64. `den` must be positive. -/
def round (neg : Bool) (num den : Nat) : F64 :=
  if num = 0 then .fin neg 0 (-1074)
  else
    let e : Int := max (-1074) (floorLog2 num den - 52)
    let n : Nat := if 0 ≤ e then num else num * 2 ^ (-e).toNat
    let d : Nat := if 0 ≤ e then den * 2 ^ e.toNat else den
    let q : Nat := n / d
    let r : Nat := n % d
    let q1 : Nat :=
      if 2 * r < d then q
      else if d < 2 * r then q + 1
      else if q % 2 = 0 then q else q + 1
    let m : Nat := if q1 = 2 ^ 53 then 2 ^ 52 else q1
    let e1 : Int := if q1 = 2 ^ 53 then e + 1 else e
    if 971 < e1 then .inf neg else .fin neg m e1

/-- The integer `(-1)^neg * m`. -/
def signed (neg : Bool) (m : Nat) : Int := if neg then -(m : Int) else (m : Int)

/-- Float64 addition `x + y` (IEEE 754, round to nearest, ties to even). -/
def add : F64 → F64 → F64
  | .nan, _ => .nan
  | _, .nan => .nan
  | .inf a, .inf b => if a = b then .inf a else .nan
  | .inf a, .fin _ _ _ => .inf a
  | .fin _ _ _, .inf b => .inf b
  | .fin n1 m1 e1, .fin n2 m2 e2 =>
    let e : Int := min e1 e2
    let s : Int := signed n1 (m1 * 2 ^ (e1 - e).toNat) + signed n2 (m2 * 2 ^ (e2 - e).toNat)
    if s = 0 then
      .fin (if m1 = 0 ∧ m2 = 0 then n1 && n2 else false) 0 (-1074)
    else if 0 ≤ e then round (decide (s < 0)) (s.natAbs * 2 ^ e.toNat) 1
    else round (decide (s < 0)) s.natAbs (2 ^ (-e).toNat)

/-- The exact rational value of a finite float64 (`0` for NaN and the infinities). -/
def toRat : F64 → ℚ
  | .fin neg m e => (signed neg m : ℚ) * (2 : ℚ) ^ e
  | _ => 0

/-- Whether the value is a finite number. -/
def isFinite : F64 → Bool
  | .fin _ _ _ => true
  | _ => false

/-- The value is a finite number equal to one hundred. -/
def is100 (x : F64) : Prop := x.isFinite = true ∧ x.toRat = 100

instance (x : F64) : Decidable (is100 x) := by unfold is100; infer_instance

/-- The float64 sum of a list accumulated from `+0` from left to right, as by `total += x`. -/
def sum (l : List F64) : F64 := l.foldl add zero

end F64

/-! ## `strconv.ParseFloat` -/

/-- Whether the byte is a decimal digit (`'0' <= c && c <= '9'`). -/
def isDigit (c : Char) : Bool := decide (48 ≤ c.toNat ∧ c.toNat ≤ 57)

/-- Whether the byte is a hexadecimal letter (`'a' <= lower(c) && lower(c) <= 'f'`). -/
def isHexLetter (c : Char) : Bool :=
  decide ((65 ≤ c.toNat ∧ c.toNat ≤ 70) ∨ (97 ≤ c.toNat ∧ c.toNat ≤ 102))

/-- Value of a hexadecimal letter (`lower(c) - 'a' + 10`). -/
def hexLetterValue (c : Char) : Nat :=
  if c.toNat ≤ 70 then c.toNat - 65 + 10 else c.toNat - 97 + 10

/-- The byte in lower case when it is one of `'A'..'Z'`. -/
def asciiLower (c : Char) : Char :=
  if 65 ≤ c.toNat ∧ c.toNat ≤ 90 then Char.ofNat (c.toNat + 32) else c

/-- Length of the common prefix of `s` and the lower-case `pre`, ignoring the case of `s`
(`commonPrefixLenIgnoreCase`). -/
def commonPrefixLenIgnoreCase : List Char → List Char → Nat
  | c :: s, p :: pre => if asciiLower c = p then commonPrefixLenIgnoreCase s pre + 1 else 0
  | _, _ => 0

/-- Length of the `inf` or `infinity` read at the head of `s`, if any. -/
def infinityLen (s : List Char) : Option Nat :=
  let n := commonPrefixLenIgnoreCase s "infinity".toList
  let n := if 3 < n ∧ n < 8 then 3 else n
  if n = 3 ∨ n = 8 then some n else none

/-- The special values `inf`, `infinity` (possibly signed) and `nan` at the head of `s`, with the
number of bytes read (`special`). -/
def special (s : List Char) : Option (F64 × Nat) :=
  match s with
  | [] => none
  | c :: cs =>
    if c = '+' ∨ c = '-' then
      (infinityLen cs).map (fun n => (F64.inf (decide (c = '-')), n + 1))
    else if c = 'i' ∨ c = 'I' then
      (infinityLen s).map (fun n => (F64.inf false, n))
    else if c = 'n' ∨ c = 'N' then
      if commonPrefixLenIgnoreCase s "nan".toList = 3 then some (F64.nan, 3) else none
    else none

/-- What the scan of the mantissa has read: the digits as an integer in the base, how many of
them follow the point, and whether a point and a digit were seen. -/
structure Mantissa where
  digits : Nat
  frac : Nat
  sawdot : Bool
  sawdigits : Bool
  deriving DecidableEq, Repr

/-- The mantissa after one more digit `v` in base `b`. -/
def Mantissa.push (st : Mantissa) (b v : Nat) : Mantissa :=
  { st with
    digits := st.digits * b + v
    frac := if st.sawdot then st.frac + 1 else st.frac
    sawdigits := true }

/-- The digit loop of `readFloat`: reads digits, underscores and at most one point, and returns
what is left of the input. -/
def readMantissa (hex : Bool) : Mantissa → List Char → Mantissa × List Char
  | st, [] => (st, [])
  | st, c :: cs =>
    if c = '_' then readMantissa hex st cs
    else if c = '.' then
      if st.sawdot then (st, c :: cs) else readMantissa hex { st with sawdot := true } cs
    else if isDigit c then readMantissa hex (st.push (if hex then 16 else 10) (c.toNat - 48)) cs
    else if hex && isHexLetter c then readMantissa hex (st.push 16 (hexLetterValue c)) cs
    else (st, c :: cs)

/-- The exponent loop of `readFloat`: digits and underscores, the value no longer growing once it
has reached 10000. -/
def readExpDigits : Nat → List Char → Nat × List Char
  | e, [] => (e, [])
  | e, c :: cs =>
    if c = '_' then readExpDigits e cs
    else if isDigit c then readExpDigits (if e < 10000 then e * 10 + (c.toNat - 48) else e) cs
    else (e, c :: cs)

/-- The scan of `underscoreOK`; `saw` is the kind of the last byte: `'^'` beginning, `'0'` digit,
`'_'` underscore, `'!'` other. -/
def underscoreScan (hex : Bool) : Char → List Char → Bool
  | saw, [] => decide (saw ≠ '_')
  | saw, c :: cs =>
    if isDigit c || (hex && isHexLetter c) then underscoreScan hex '0' cs
    else if c = '_' then
      if saw ≠ '0' then false else underscoreScan hex '_' cs
    else if saw = '_' then false
    else underscoreScan hex '!' cs

/-- Whether the underscores of `s` stand only between digits, or between a base prefix and a
digit (`underscoreOK`). -/
def underscoreOK (s : List Char) : Bool :=
  let t : List Char :=
    match s with
    | c :: cs => if c = '-' ∨ c = '+' then cs else s
    | [] => s
  match t with
  | a :: b :: rest =>
    if a = '0' ∧ b ∈ ['b', 'B', 'o', 'O', 'x', 'X'] then
      underscoreScan (decide (b = 'x' ∨ b = 'X')) '0' rest
    else underscoreScan false '^' t
  | _ => underscoreScan false '^' t

/-- A number read by `readFloat`: the value is `(-1)^neg * digits * 10^exp`, or
`(-1)^neg * digits * 2^exp` when `hex`. -/
structure Parsed where
  neg : Bool
  hex : Bool
  digits : Nat
  exp : Int
  deriving DecidableEq, Repr

/-- The optional exponent of `readFloat` and the end of the text: `st` is the mantissa read and
`rest` what follows it in `s`. -/
def readExponent (s : List Char) (neg hex : Bool) (st : Mantissa) (rest : List Char) :
    Option Parsed :=
  let dp : Int := -((if hex then 4 * st.frac else st.frac : Nat) : Int)
  match rest with
  | [] => if hex then none else if underscoreOK s then some ⟨neg, hex, st.digits, dp⟩ else none
  | c :: r1 =>
    if (if hex then c = 'p' ∨ c = 'P' else c = 'e' ∨ c = 'E') then
      match r1 with
      | [] => none
      | d :: r2 =>
        let esign : Int := if d = '-' then -1 else 1
        let r3 : List Char := if d = '+' ∨ d = '-' then r2 else r1
        match r3 with
        | [] => none
        | f :: _ =>
          if isDigit f then
            match readExpDigits 0 r3 with
            | (e, []) =>
              if underscoreOK s then some ⟨neg, hex, st.digits, dp + (e : Int) * esign⟩ else none
            | (_, _ :: _) => none
          else none
    else none

/-- The number denoted by the whole of `s` in the decimal or hexadecimal floating-point syntax
(`readFloat`, with all the digits of the mantissa kept), `none` when `s` is not well formed. -/
def readFloat (s : List Char) : Option Parsed :=
  match s with
  | [] => none
  | c :: cs =>
    let neg : Bool := decide (c = '-')
    let s1 : List Char := if c = '+' ∨ c = '-' then cs else s
    let hex : Bool :=
      match s1 with
      | a :: b :: _ :: _ => decide (a = '0' ∧ (b = 'x' ∨ b = 'X'))
      | _ => false
    let s2 : List Char := if hex then s1.drop 2 else s1
    match readMantissa hex ⟨0, 0, false, false⟩ s2 with
    | (st, rest) => if st.sawdigits then readExponent s neg hex st rest else none

/-- The float64 nearest to a number read by `readFloat`. -/
def Parsed.toF64 (p : Parsed) : F64 :=
  let b : Nat := if p.hex then 2 else 10
  if 0 ≤ p.exp then F64.round p.neg (p.digits * b ^ p.exp.toNat) 1
  else F64.round p.neg p.digits (b ^ (-p.exp).toNat)

/-- The digit of value `n` in lower-case hexadecimal. -/
def hexDigit (n : Nat) : Char := "0123456789abcdef".toList.getD n '0'

/-- The printable code points above U+00FF. In Go they are listed by the tables `isPrint16`,
`isNotPrint16`, `isPrint32` and `isNotPrint32` of the package `strconv`, which are data of the Go
release and no part of `csv.go`: the functions below take them as a parameter, and the properties
are proved for every such table. -/
class PrintTable where
  /-- Whether the tables list the code point as printable (consulted above U+00FF only). -/
  printable : Char → Bool

/-- Whether `strconv.IsPrint` holds of the code point: up to U+00FF by the test Go makes on
Latin-1, above it by the tables. -/
def isPrint [PrintTable] (c : Char) : Bool :=
  let r := c.toNat
  if r ≤ 255 then decide ((32 ≤ r ∧ r ≤ 126) ∨ (161 ≤ r ∧ r ≠ 173)) else PrintTable.printable c

/-- The text `strconv.Quote` writes for one code point. -/
def quoteChar [PrintTable] (c : Char) : List Char :=
  let r := c.toNat
  let bs : Char := Char.ofNat 92
  if r = 34 ∨ r = 92 then [bs, c]
  else if isPrint c then [c]
  else if r = 7 then [bs, 'a']
  else if r = 8 then [bs, 'b']
  else if r = 12 then [bs, 'f']
  else if r = 10 then [bs, 'n']
  else if r = 13 then [bs, 'r']
  else if r = 9 then [bs, 't']
  else if r = 11 then [bs, 'v']
  else if r < 32 ∨ r = 127 then [bs, 'x', hexDigit (r / 16), hexDigit (r % 16)]
  else if r < 65536 then
    [bs, 'u', hexDigit (r / 4096 % 16), hexDigit (r / 256 % 16), hexDigit (r / 16 % 16),
      hexDigit (r % 16)]
  else
    [bs, 'U', hexDigit (r / 268435456 % 16), hexDigit (r / 16777216 % 16),
      hexDigit (r / 1048576 % 16), hexDigit (r / 65536 % 16), hexDigit (r / 4096 % 16),
      hexDigit (r / 256 % 16), hexDigit (r / 16 % 16), hexDigit (r % 16)]

/-- The double-quoted Go string literal of `s` (`strconv.Quote`). -/
def quote [PrintTable] (s : String) : String :=
  String.mk ([Char.ofNat 34] ++ (s.toList.map quoteChar).flatten ++ [Char.ofNat 34])

/-- Message of the `*strconv.NumError` of `ParseFloat` for a text that is not a number. -/
def syntaxError [PrintTable] (s : String) : String :=
  "strconv.ParseFloat: parsing " ++ quote s ++ ": invalid syntax"

/-- Message of the `*strconv.NumError` of `ParseFloat` for a number too large for a float64. -/
def rangeError [PrintTable] (s : String) : String :=
  "strconv.ParseFloat: parsing " ++ quote s ++ ": value out of range"

/-- The call `strconv.ParseFloat(s, 64)`: the float64 nearest to the number `s` denotes, or the
message of the error. -/
def parseFloat [PrintTable] (s : String) : Except String F64 :=
  match special s.toList with
  | some (f, n) => if n = s.toList.length then .ok f else .error (syntaxError s)
  | none =>
    match readFloat s.toList with
    | none => .error (syntaxError s)
    | some p =>
      match p.toF64 with
      | .inf _ => .error (rangeError s)
      | f => .ok f

/-! ## The `%f` verb and `math/big` -/

/-- The decimal digit of value `n`. -/
def digitChar (n : Nat) : Char := Char.ofNat (48 + n % 10)

/-- The integer nearest to `num / den`, ties to even. -/
def roundHalfEven (num den : Nat) : Nat :=
  let q := num / den
  let r := num % den
  if 2 * r < den then q
  else if den < 2 * r then q + 1
  else if q % 2 = 0 then q else q + 1

/-- The six digits that follow the decimal point, for a number of millionths `n`. -/
def sixDigits (n : Nat) : String :=
  String.mk [digitChar (n / 100000), digitChar (n / 10000), digitChar (n / 1000),
    digitChar (n / 100), digitChar (n / 10), digitChar n]

/-- The text `fmt` writes for a float64 under the verb `%f`: the value rounded to six digits
after the decimal point (ties to even), or `+Inf`, `-Inf`, `NaN`. -/
def fmtFloat : F64 → String
  | .nan => "NaN"
  | .inf neg => if neg then "-Inf" else "+Inf"
  | .fin neg m e =>
    let n : Nat := roundHalfEven (m * 1000000 * 2 ^ e.toNat) (2 ^ (-e).toNat)
    (if neg then "-" else "") ++ toString (n / 1000000) ++ "." ++ sixDigits n

/-- A value of `big.Float` as `big.NewFloat` makes them: an infinity or the finite value
`(-1)^neg * m * 2^e`. -/
inductive BigFloat where
  | inf (neg : Bool)
  | fin (neg : Bool) (m : Nat) (e : Int)
  deriving DecidableEq, Repr

/-- The call `big.NewFloat(x)`; `none` is the panic with `ErrNaN` when `x` is a NaN. -/
def bigNewFloat : F64 → Option BigFloat
  | .nan => none
  | .inf neg => some (.inf neg)
  | .fin neg m e => some (.fin neg m e)

/-- The class of a `big.Float` (`ord`): `-2` for `-Inf`, `-1` negative, `0` zero, `1` positive,
`2` for `+Inf`. -/
def BigFloat.ord : BigFloat → Int
  | .inf neg => if neg then -2 else 2
  | .fin neg m _ => if m = 0 then 0 else if neg then -1 else 1

/-- Comparison of the absolute values of two finite `big.Float` (`ucmp`). -/
def BigFloat.ucmp : BigFloat → BigFloat → Int
  | .fin _ m1 e1, .fin _ m2 e2 =>
    let e : Int := min e1 e2
    let a : Nat := m1 * 2 ^ (e1 - e).toNat
    let b : Nat := m2 * 2 ^ (e2 - e).toNat
    if a < b then -1 else if b < a then 1 else 0
  | _, _ => 0

/-- The method `x.Cmp(y)`: `-1`, `0` or `1` as `x` is below, equal to or above `y`. -/
def BigFloat.cmp (x y : BigFloat) : Int :=
  if x.ord < y.ord then -1
  else if y.ord < x.ord then 1
  else if x.ord = -1 then y.ucmp x
  else if x.ord = 1 then x.ucmp y
  else 0

/-! ## Column names and data model (`csv.go`, lines 12 to 57) -/

/-- The header name `group_id`. -/
def groupId : String := "group_id"
/-- The header name `date`. -/
def date : String := "date"
/-- The header name `cost`. -/
def cost : String := "cost"
/-- The header name `currency`. -/
def currency : String := "currency"
/-- The header name `category_id`. -/
def categoryId : String := "category_id"
/-- The header name `description`. -/
def description : String := "description"
/-- The header name `details`. -/
def details : String := "details"
/-- The header name `fmt.Sprintf("users__%d__user_id", u)`. -/
def userId (u : Nat) : String := "users__" ++ toString u ++ "__user_id"
/-- The header name `fmt.Sprintf("users__%d__paid_share", u)`. -/
def userPaidShare (u : Nat) : String := "users__" ++ toString u ++ "__paid_share"
/-- The header name `fmt.Sprintf("users__%d__owed_share", u)`. -/
def userOwedShare (u : Nat) : String := "users__" ++ toString u ++ "__owed_share"

/-- The column positions of one user slot, `0` while not found. -/
structure UserIndexes where
  userId : Nat := 0
  paidShare : Nat := 0
  owedShare : Nat := 0
  deriving DecidableEq, Repr

/-- The column positions found in a header row, `0` while not found. -/
structure Indexes where
  groupId : Nat := 0
  date : Nat := 0
  cost : Nat := 0
  currency : Nat := 0
  categoryId : Nat := 0
  description : Nat := 0
  details : Nat := 0
  users : List UserIndexes := []
  deriving DecidableEq, Repr

/-- The stake of one user in an expense. -/
structure UserEntry where
  UserId : String
  PaidShare : F64
  OwedShare : F64
  deriving DecidableEq, Repr

/-- One expense. -/
structure Entry where
  GroupId : String
  Date : String
  Cost : F64
  Currency : String
  CategoryId : String
  Description : String
  Details : String
  Users : List UserEntry
  deriving DecidableEq, Repr

/-- A `*csv.Reader`: the results of its successive calls of `Read()`, a record or the message of
an error; at the end of the list `Read()` returns `io.EOF`. -/
abbrev Reader := List (Except String (List String))

namespace Outcome

/-- Sequencing: the rest of the function runs on the value, an error or a crash ends it. -/
def bind {α β : Type} : Outcome α → (α → Outcome β) → Outcome β
  | .ok a, f => f a
  | .error e, _ => .error e
  | .crash, _ => .crash

/-- A call returning `(T, error)` that cannot panic. -/
def ofExcept {α : Type} : Except String α → Outcome α
  | .ok a => .ok a
  | .error e => .error e

/-- An operation that panics when it has no value. -/
def ofOption {α : Type} : Option α → Outcome α
  | some a => .ok a
  | none => .crash

end Outcome

/-! ## `readIndexes` (`csv.go`, lines 146 to 198) -/

/-- One iteration of the first loop of `readIndexes`: the `switch header` on column `i`. -/
def fixedStep (cfi : Indexes) (i : Nat) (header : String) : Indexes :=
  if header = groupId then { cfi with groupId := i + 1 }
  else if header = date then { cfi with date := i + 1 }
  else if header = cost then { cfi with cost := i + 1 }
  else if header = currency then { cfi with currency := i + 1 }
  else if header = categoryId then { cfi with categoryId := i + 1 }
  else if header = description then { cfi with description := i + 1 }
  else if header = details then { cfi with details := i + 1 }
  else cfi

/-- The first loop of `readIndexes`, from column `i` on. -/
def scanFixed : Indexes → Nat → List String → Indexes
  | cfi, _, [] => cfi
  | cfi, i, header :: rest => scanFixed (fixedStep cfi i header) (i + 1) rest

/-- The loop `for len(cfi.users) <= u` of `readIndexes`: zero values are appended until the
slice has more than `u` elements. -/
def growUsers (users : List UserIndexes) (u : Nat) : List UserIndexes :=
  users ++ List.replicate (u + 1 - users.length) ⟨0, 0, 0⟩

/-- The assignment to a field of `cfi.users[u]`: `f` applied to the element at index `u`. -/
def updateUser (f : UserIndexes → UserIndexes) : List UserIndexes → Nat → List UserIndexes
  | [], _ => []
  | x :: xs, 0 => f x :: xs
  | x :: xs, u + 1 => x :: updateUser f xs u

/-- One iteration of the inner loop of the second loop of `readIndexes`, for slot `u` and
column `i`. -/
def userStep (u : Nat) (users : List UserIndexes) (i : Nat) (header : String) :
    List UserIndexes :=
  if header = userId u then
    updateUser (fun x => { x with userId := i + 1 }) (growUsers users u) u
  else if header = userPaidShare u then
    updateUser (fun x => { x with paidShare := i + 1 }) (growUsers users u) u
  else if header = userOwedShare u then
    updateUser (fun x => { x with owedShare := i + 1 }) (growUsers users u) u
  else users

/-- The inner loop of the second loop of `readIndexes` for slot `u`, from column `i` on. -/
def scanUser (u : Nat) : List UserIndexes → Nat → List String → List UserIndexes
  | users, _, [] => users
  | users, i, header :: rest => scanUser u (userStep u users i header) (i + 1) rest

/-- The second loop of `readIndexes`: `for u := 0; u < 10; u++`. -/
def scanUsers (headers : List String) : List UserIndexes :=
  (List.range 10).foldl (fun users u => scanUser u users 0 headers) []

/-- The message `fmt.Errorf("missing \"%s\" header", name)`. -/
def missingHeader (name : String) : String := "missing \"" ++ name ++ "\" header"

/-- The function `validateUserIndexes`; `none` is the `nil` error. -/
def validateUserIndexes (i : Nat) (index : UserIndexes) : Option String :=
  if index.userId < 1 then some (missingHeader (userId i))
  else if index.paidShare < 1 then some (missingHeader (userPaidShare i))
  else if index.owedShare < 1 then some (missingHeader (userOwedShare i))
  else none

/-- The loop of `validateUserIndexesSlice`, the head of the list being slot `i`. -/
def validateUserIndexesFrom : Nat → List UserIndexes → Option String
  | _, [] => none
  | i, item :: rest =>
    match validateUserIndexes i item with
    | some err => some err
    | none => validateUserIndexesFrom (i + 1) rest

/-- The function `validateUserIndexesSlice`; `none` is the `nil` error. -/
def validateUserIndexesSlice (indexes : List UserIndexes) : Option String :=
  validateUserIndexesFrom 0 indexes

/-- The function `validateIndexes`; `none` is the `nil` error. -/
def validateIndexes (i : Indexes) : Option String :=
  if i.groupId < 1 then some (missingHeader groupId)
  else if i.date < 1 then some (missingHeader date)
  else if i.cost < 1 then some (missingHeader cost)
  else if i.currency < 1 then some (missingHeader currency)
  else if i.categoryId < 1 then some (missingHeader categoryId)
  else if i.description < 1 then some (missingHeader description)
  else if i.details < 1 then some (missingHeader details)
  else validateUserIndexesSlice i.users

/-- The body of `readIndexes` once the header row has been read. -/
def headerIndexes (headers : List String) : Except String Indexes :=
  let cfi : Indexes := { scanFixed {} 0 headers with users := scanUsers headers }
  match validateIndexes cfi with
  | some err => .error err
  | none => .ok cfi

/-- The function `readIndexes`, with the state of the reader after it. -/
def readIndexes (r : Reader) : Except String Indexes × Reader :=
  match r with
  | [] => (.error ("EOF" ++ ": can't read header row"), [])
  | .error err :: rest => (.error (err ++ ": can't read header row"), rest)
  | .ok headers :: rest => (headerIndexes headers, rest)

/-! ## `entryFromRecord` (`csv.go`, lines 101 to 144) -/

/-- The indexing `record[idx-1]`; `none` is the index-out-of-range panic. -/
def field (record : List String) (idx : Nat) : Option String :=
  if idx = 0 then none else record[idx - 1]?

/-- The loop over `idxs.users` of `entryFromRecord`, with the two running totals and the users
appended so far. -/
def usersLoop [PrintTable] (record : List String) :
    List UserIndexes → F64 → F64 → List UserEntry → Outcome (F64 × F64 × List UserEntry)
  | [], totalPaidShare, totalOwedShare, users => .ok (totalPaidShare, totalOwedShare, users)
  | u :: rest, totalPaidShare, totalOwedShare, users =>
    (Outcome.ofOption (field record u.paidShare)).bind fun ps =>
    (Outcome.ofExcept (parseFloat ps)).bind fun paidShare =>
    (Outcome.ofOption (field record u.owedShare)).bind fun os =>
    (Outcome.ofExcept (parseFloat os)).bind fun owedShare =>
    (Outcome.ofOption (field record u.userId)).bind fun uid =>
    usersLoop record rest (totalPaidShare.add paidShare) (totalOwedShare.add owedShare)
      (users ++ [⟨uid, paidShare, owedShare⟩])

/-- The test `big.NewFloat(100.0).Cmp(big.NewFloat(total)) != 0`. -/
def notHundred (total : F64) : Outcome Bool :=
  (Outcome.ofOption (bigNewFloat F64.hundred)).bind fun x =>
  (Outcome.ofOption (bigNewFloat total)).bind fun y =>
  .ok (decide (x.cmp y ≠ 0))

/-- The function `entryFromRecord`. -/
def entryFromRecord [PrintTable] (record : List String) (idxs : Indexes) : Outcome Entry :=
  (Outcome.ofOption (field record idxs.groupId)).bind fun g =>
  (Outcome.ofOption (field record idxs.date)).bind fun d =>
  (Outcome.ofOption (field record idxs.currency)).bind fun cur =>
  (Outcome.ofOption (field record idxs.categoryId)).bind fun cat =>
  (Outcome.ofOption (field record idxs.description)).bind fun desc =>
  (Outcome.ofOption (field record idxs.details)).bind fun det =>
  (Outcome.ofOption (field record idxs.cost)).bind fun c =>
  (Outcome.ofExcept (parseFloat c)).bind fun costValue =>
  (usersLoop record idxs.users F64.zero F64.zero []).bind fun totals =>
  (notHundred totals.1).bind fun badPaid =>
  if badPaid then .error ("total paid share is not 100 (" ++ fmtFloat totals.1 ++ ")")
  else
    (notHundred totals.2.1).bind fun badOwed =>
    if badOwed then .error ("total owed share is not 100 (" ++ fmtFloat totals.2.1 ++ ")")
    else .ok ⟨g, d, costValue, cur, cat, desc, det, totals.2.2⟩

/-! ## `read` (`csv.go`, lines 73 to 99) -/

/-- The loop `for row := 1; true; row++` of `read`, from row number `row` on, with the entries
appended so far; the second component is the state of the reader after it. -/
def readRows [PrintTable] (idxs : Indexes) : Nat → List Entry → Reader → Outcome (List Entry) × Reader
  | _, entries, [] => (.ok entries, [])
  | _, _, .error err :: rest => (.error err, rest)
  | row, entries, .ok record :: rest =>
    match entryFromRecord record idxs with
    | .ok entry => readRows idxs (row + 1) (entries ++ [entry]) rest
    | .error err => (.error (err ++ ": error on row " ++ toString row), rest)
    | .crash => (.crash, rest)

/-- The function `read`, with the state of the reader after it. -/
def read [PrintTable] (r : Reader) : Outcome (List Entry) × Reader :=
  match readIndexes r with
  | (.error err, rest) => (.error err, rest)
  | (.ok idxs, rest) => readRows idxs 1 [] rest

/-! ## Notions used to state the properties -/

/-- Position recorded for `name` by a scan of `hs` that starts at column `i` with `init`
recorded: the last column of `hs` holding `name`, counted from one, or `init`. -/
def lastPos (name : String) : Nat → Nat → List String → Nat
  | init, _, [] => init
  | init, i, h :: rest => lastPos name (if h = name then i + 1 else init) (i + 1) rest

/-- Some header of `hs` is one of the three names of slot `u`. -/
def slotSeen (u : Nat) (hs : List String) : Prop :=
  userId u ∈ hs ∨ userPaidShare u ∈ hs ∨ userOwedShare u ∈ hs

instance (u : Nat) (hs : List String) : Decidable (slotSeen u hs) := by
  unfold slotSeen; infer_instance

/-- One more than the largest slot below `n` of which `hs` holds a name, `0` without one. -/
def slotCountUpTo (hs : List String) : Nat → Nat
  | 0 => 0
  | n + 1 => if slotSeen n hs then n + 1 else slotCountUpTo hs n

/-- Number of user slots a header row gives rise to: one more than the largest slot below ten
of which it holds a name. -/
def slotCount (hs : List String) : Nat := slotCountUpTo hs 10

/-- The three positions of slot `k` in the header row `hs`. -/
def slotOf (hs : List String) (k : Nat) : UserIndexes :=
  ⟨lastPos (userId k) 0 0 hs, lastPos (userPaidShare k) 0 0 hs, lastPos (userOwedShare k) 0 0 hs⟩

/-- The positions of slot `u` after a scan of `hs` from column `i`, `x` being recorded before. -/
def slotFn (u i : Nat) (hs : List String) (x : UserIndexes) : UserIndexes :=
  ⟨lastPos (userId u) x.userId i hs, lastPos (userPaidShare u) x.paidShare i hs,
    lastPos (userOwedShare u) x.owedShare i hs⟩

/-- The positions of all the columns of the header row `hs`, by name. -/
def resolved (hs : List String) : Indexes :=
  { groupId := lastPos groupId 0 0 hs
    date := lastPos date 0 0 hs
    cost := lastPos cost 0 0 hs
    currency := lastPos currency 0 0 hs
    categoryId := lastPos categoryId 0 0 hs
    description := lastPos description 0 0 hs
    details := lastPos details 0 0 hs
    users := (List.range (slotCount hs)).map (slotOf hs) }

/-- The seven fixed header names, in the order of `validateIndexes`. -/
def fixedNames : List String :=
  [groupId, date, cost, currency, categoryId, description, details]

/-- The three header names of slot `k`, in the order of `validateUserIndexes`. -/
def slotNames (k : Nat) : List String := [userId k, userPaidShare k, userOwedShare k]

/-- The header names `readIndexes` requires of the header row `hs`, in the order in which it
checks them: the seven fixed names, then the three names of every slot below `slotCount hs`. -/
def required (hs : List String) : List String :=
  fixedNames ++ (List.range (slotCount hs)).flatMap slotNames

/-- The fields of `record` at the positions `u` decode to the user `e`: the identifier is the
field at `u.userId`, and the shares are the numbers parsed from the fields at `u.paidShare` and
`u.owedShare`. -/
def decodes [PrintTable] (record : List String) (u : UserIndexes) (e : UserEntry) : Prop :=
  field record u.userId = some e.UserId ∧
    (field record u.paidShare).map parseFloat = some (.ok e.PaidShare) ∧
    (field record u.owedShare).map parseFloat = some (.ok e.OwedShare)

instance [PrintTable] (record : List String) (u : UserIndexes) (e : UserEntry) :
    Decidable (decodes record u e) := by
  unfold decodes; infer_instance

/-- The field of `row` under the header named `name`: the field of the column whose header is
`name` (the first such column), if there is one. -/
def fieldUnder (headers row : List String) (name : String) : Option String :=
  if name ∈ headers then row[headers.indexOf name]? else none

/-- The exact rational value of a number read by `readFloat`. -/
def Parsed.toRat (p : Parsed) : ℚ :=
  (F64.signed p.neg p.digits : ℚ) * (if p.hex then (2 : ℚ) else 10) ^ p.exp

/-- The exact rational value of the number a text denotes, before any rounding to a float64;
`none` when the text is not a number. -/
def exactValue (s : String) : Option ℚ := (readFloat s.toList).map Parsed.toRat

/-- The seven positions of the fixed fields, in the order of `fixedNames`. -/
def Indexes.fixedPositions (idxs : Indexes) : List Nat :=
  [idxs.groupId, idxs.date, idxs.cost, idxs.currency, idxs.categoryId, idxs.description,
    idxs.details]

/-- The header names required of `hs` when a slot counts only if one of its own three names
occurs: the seven fixed names, then the three names of every slot below ten of which `hs` holds
a name. -/
def requiredOwnSlots (hs : List String) : List String :=
  fixedNames ++ ((List.range 10).filter (fun u => decide (slotSeen u hs))).flatMap slotNames

/-- The message of the error of `strconv.ParseFloat` on `s`, when it fails. -/
def parseError [PrintTable] (s : String) : Option String :=
  match parseFloat s with
  | .error err => some err
  | .ok _ => none

/-- The numeric fields of a record in the order in which `entryFromRecord` parses them: the
cost, then for each slot in ascending order the paid share and the owed share. -/
def numericFields (record : List String) (idxs : Indexes) : List String :=
  (field record idxs.cost).toList ++
    idxs.users.flatMap fun u =>
      (field record u.paidShare).toList ++ (field record u.owedShare).toList

/-- The columns of `l` rearranged by `p`: column `i` of the result is column `p[i]` of `l`. -/
def permute (p : List Nat) (l : List String) : List String := p.map fun i => l.getD i ""

/-- The two results `([]Entry, error)` that `read` returns to its caller, the error being `nil`
or a message; `none` when `read` panics and returns nothing. -/
def returned : Outcome (List Entry) → Option (List Entry × Option String)
  | .ok entries => some (entries, none)
  | .error err => some ([], some err)
  | .crash => none

/-- The names and positions of the slots of a list of user positions, the head of the list
being slot `k`. -/
def userPositionsFrom : Nat → List UserIndexes → List (String × Nat)
  | _, [] => []
  | k, u :: us =>
    (userId k, u.userId) :: (userPaidShare k, u.paidShare) :: (userOwedShare k, u.owedShare) ::
      userPositionsFrom (k + 1) us

/-- Every recorded position with the header name it is recorded for: the seven fixed fields,
then the three fields of each element of `users`. -/
def namedPositions (idxs : Indexes) : List (String × Nat) :=
  [(groupId, idxs.groupId), (date, idxs.date), (cost, idxs.cost), (currency, idxs.currency),
    (categoryId, idxs.categoryId), (description, idxs.description),
    (details, idxs.details)] ++ userPositionsFrom 0 idxs.users

/-- Column `q` (counted from zero) is the last column of `hs` whose header is `name`. -/
def isLastColumn (hs : List String) (name : String) (q : Nat) : Prop :=
  hs[q]? = some name ∧ ∀ j, q < j → hs[j]? ≠ some name

/-- The header names `readIndexes` recognizes: the seven fixed names and the three names of
each of the slots 0 to 9. -/
def recognized : List String := fixedNames ++ (List.range 10).flatMap slotNames

/-! ## Sample inputs -/

/-- A table for evaluating the functions on the sample inputs below. The texts of the samples
hold ASCII characters only, and on such a text `isPrint` never consults the table. -/
instance sampleTable : PrintTable := ⟨fun _ => true⟩

/-- A header row in scrambled order, with two user slots and one unrecognized column. -/
def sampleHeader : List String :=
  ["date", "users__1__paid_share", "group_id", "cost", "users__0__user_id", "currency",
    "users__0__owed_share", "category_id", "description", "users__1__user_id", "details",
    "users__0__paid_share", "users__1__owed_share", "notes"]

/-- The positions of the columns of `sampleHeader`. -/
def sampleIndexes : Indexes :=
  { groupId := 3, date := 1, cost := 4, currency := 6, categoryId := 8, description := 9,
    details := 11, users := [⟨5, 12, 7⟩, ⟨10, 2, 13⟩] }

/-- A data row for `sampleHeader`, the paid shares being 70.1 and 29.9. -/
def sampleRow : List String :=
  ["2024-01-05", "29.9", "g1", "12.50", "alice", "EUR", "50", "18", "Dinner", "bob", "",
    "70.1", "50", "n/a"]

/-- The entry decoded from `sampleRow`. -/
def sampleEntry : Entry :=
  { GroupId := "g1", Date := "2024-01-05", Cost := .fin false 7036874417766400 (-49),
    Currency := "EUR", CategoryId := "18", Description := "Dinner", Details := "",
    Users := [⟨"alice", .fin false 4932848966854246 (-46), .fin false 7036874417766400 (-47)⟩,
      ⟨"bob", .fin false 8416101803648614 (-48), .fin false 7036874417766400 (-47)⟩] }

/-- A header row with three user slots. -/
def threeHeader : List String :=
  ["group_id", "date", "cost", "currency", "category_id", "description", "details",
    "users__0__user_id", "users__0__paid_share", "users__0__owed_share",
    "users__1__user_id", "users__1__paid_share", "users__1__owed_share",
    "users__2__user_id", "users__2__paid_share", "users__2__owed_share"]

/-- The positions of the columns of `threeHeader`. -/
def threeIndexes : Indexes :=
  { groupId := 1, date := 2, cost := 3, currency := 4, categoryId := 5, description := 6,
    details := 7, users := [⟨8, 9, 10⟩, ⟨11, 12, 13⟩, ⟨14, 15, 16⟩] }

/-- A data row for `threeHeader` whose paid shares are 33.4, 33.3 and 33.3 and whose owed
shares are 50, 25 and 25. -/
def threeRow : List String :=
  ["g1", "2024-01-05", "90", "EUR", "18", "Dinner", "", "alice", "33.4", "50", "bob", "33.3",
    "25", "carol", "33.3", "25"]

/-- A header row with the seven fixed names and, of the user slots, only the identifier and
the paid share of slot 1. -/
def gapHeader : List String :=
  ["group_id", "date", "cost", "currency", "category_id", "description", "details",
    "users__1__user_id", "users__1__paid_share"]

/-- A header row with the seven fixed names and the three names of slot 1, without slot 0. -/
def slotOneHeader : List String :=
  ["group_id", "date", "cost", "currency", "category_id", "description", "details",
    "users__1__user_id", "users__1__paid_share", "users__1__owed_share"]

/-- A header row with two user slots that lacks `users__0__paid_share`. -/
def lackingHeader : List String :=
  ["group_id", "date", "cost", "currency", "category_id", "description", "details",
    "users__0__user_id", "users__0__owed_share",
    "users__1__user_id", "users__1__paid_share", "users__1__owed_share"]

/-- A header row with two user slots, in the usual order. -/
def twoHeader : List String :=
  ["group_id", "date", "cost", "currency", "category_id", "description", "details",
    "users__0__user_id", "users__0__paid_share", "users__0__owed_share",
    "users__1__user_id", "users__1__paid_share", "users__1__owed_share"]

/-- The positions of the columns of `twoHeader`. -/
def twoIndexes : Indexes :=
  { groupId := 1, date := 2, cost := 3, currency := 4, categoryId := 5, description := 6,
    details := 7, users := [⟨8, 9, 10⟩, ⟨11, 12, 13⟩] }

/-- A data row for `twoHeader` with the given cost, paid shares and owed shares. -/
def twoRow (c p0 o0 p1 o1 : String) : List String :=
  ["g1", "2024-01-05", c, "EUR", "18", "Dinner", "", "alice", p0, o0, "bob", p1, o1]

/-- A data row for `twoHeader` that decodes: paid shares 25 and 75, owed shares 50 and 50. -/
def goodRow : List String := twoRow "12.5" "25" "50" "75" "50"

/-- The entry decoded from `goodRow`. -/
def goodEntry : Entry :=
  { GroupId := "g1", Date := "2024-01-05", Cost := .fin false 7036874417766400 (-49),
    Currency := "EUR", CategoryId := "18", Description := "Dinner", Details := "",
    Users := [⟨"alice", .fin false 7036874417766400 (-48), .fin false 7036874417766400 (-47)⟩,
      ⟨"bob", .fin false 5277655813324800 (-46), .fin false 7036874417766400 (-47)⟩] }

/-- The users of a row of `twoHeader` whose paid shares are 12.5 and 75 and whose owed shares
are 50 and 50. -/
def paidShortUsers : List UserEntry :=
  [⟨"alice", .fin false 7036874417766400 (-49), .fin false 7036874417766400 (-47)⟩,
    ⟨"bob", .fin false 5277655813324800 (-46), .fin false 7036874417766400 (-47)⟩]

/-- The users of a row of `twoHeader` whose paid shares are 25 and 75 and whose owed shares
are 50 and 31.25. -/
def owedShortUsers : List UserEntry :=
  [⟨"alice", .fin false 7036874417766400 (-48), .fin false 7036874417766400 (-47)⟩,
    ⟨"bob", .fin false 5277655813324800 (-46), .fin false 8796093022208000 (-48)⟩]

/-- A data row for `threeHeader` whose paid shares are 70.1, 20.2 and 9.7 and whose owed
shares are 50, 25 and 25. -/
def threeGoodRow : List String :=
  ["g1", "2024-01-05", "90", "EUR", "18", "Dinner", "", "alice", "70.1", "50", "bob", "20.2",
    "25", "carol", "9.7", "25"]

/-- The users decoded from `threeGoodRow`. -/
def threeGoodUsers : List UserEntry :=
  [⟨"alice", .fin false 4932848966854246 (-46), .fin false 7036874417766400 (-47)⟩,
    ⟨"bob", .fin false 5685794529555251 (-48), .fin false 7036874417766400 (-48)⟩,
    ⟨"carol", .fin false 5460614548186726 (-49), .fin false 7036874417766400 (-48)⟩]

/-- A header row with the seven fixed names that lacks four names of its slots 0 and 1. -/
def sparseHeader : List String :=
  ["details", "group_id", "date", "cost", "currency", "category_id", "description",
    "users__1__owed_share", "users__0__user_id"]

/-- The positions of the columns of `fixedNames`, a header row without user slot. -/
def fixedOnlyIndexes : Indexes :=
  { groupId := 1, date := 2, cost := 3, currency := 4, categoryId := 5, description := 6,
    details := 7, users := [] }

/-- A header row in which `group_id` and `users__0__paid_share` occur twice. -/
def duplicateHeader : List String :=
  ["group_id", "date", "cost", "currency", "category_id", "description", "details",
    "users__0__user_id", "users__0__paid_share", "users__0__owed_share", "group_id",
    "users__0__paid_share"]

/-- The positions of the columns of `duplicateHeader`. -/
def duplicateIndexes : Indexes :=
  { groupId := 11, date := 2, cost := 3, currency := 4, categoryId := 5, description := 6,
    details := 7, users := [⟨8, 12, 10⟩] }

/-- A header row with the seven fixed names and, of the user slots, `users__1__user_id` only. -/
def loneIdHeader : List String :=
  ["group_id", "date", "cost", "currency", "category_id", "description", "details",
    "users__1__user_id"]

/-! # Properties -/

set_option maxRecDepth 100000
set_option exponentiation.threshold 100000

/-! ## The table of printable code points

The table is consulted above U+00FF only, and only for the text of an error. -/

theorem isPrint_latin1 (t₁ t₂ : PrintTable) (c : Char) (h : c.toNat ≤ 255) :
    @isPrint t₁ c = @isPrint t₂ c := by
  simp only [isPrint, h, if_true]

theorem quote_latin1 (t₁ t₂ : PrintTable) (s : String) (h : ∀ c ∈ s.toList, c.toNat ≤ 255) :
    @quote t₁ s = @quote t₂ s := by
  have e : s.toList.map (@quoteChar t₁) = s.toList.map (@quoteChar t₂) := by
    apply List.map_congr_left
    intro c hc
    simp only [quoteChar, isPrint_latin1 t₁ t₂ c (h c hc)]
  simp only [quote, e]

theorem parseFloat_latin1 (t₁ t₂ : PrintTable) (s : String)
    (h : ∀ c ∈ s.toList, c.toNat ≤ 255) : @parseFloat t₁ s = @parseFloat t₂ s := by
  simp only [parseFloat, syntaxError, rangeError, quote_latin1 t₁ t₂ s h]

theorem parseFloat_ok_table (t₁ t₂ : PrintTable) (s : String) (f : F64)
    (h : @parseFloat t₁ s = .ok f) : @parseFloat t₂ s = .ok f := by
  unfold parseFloat at h ⊢
  cases hsp : special s.toList with
  | some p =>
    rw [hsp] at h
    simp only at h ⊢
    split at h
    · rename_i hn; simpa [hn] using h
    · exact absurd h (by simp)
  | none =>
    rw [hsp] at h
    simp only at h ⊢
    cases hr : readFloat s.toList with
    | none => rw [hr] at h; exact absurd h (by simp)
    | some p =>
      rw [hr] at h
      simp only at h ⊢
      cases hf : p.toF64 with
      | inf b => rw [hf] at h; exact absurd h (by simp)
      | nan => rw [hf] at h; simpa using h
      | fin b m e => rw [hf] at h; simpa using h

/-! ## The scan of the header row -/

theorem lastPos_of_not_mem (name : String) (hs : List String) :
    ∀ (init i : Nat), name ∉ hs → lastPos name init i hs = init := by
  induction hs with
  | nil => intro init i _; rfl
  | cons h rest ih =>
    intro init i hmem
    have h1 : h ≠ name := fun e => hmem (by simp [e])
    have h2 : name ∉ rest := fun e => hmem (by simp [e])
    simp [lastPos, h1, ih _ _ h2]

theorem lastPos_of_mem (name : String) (hs : List String) :
    ∀ (init i : Nat), name ∈ hs →
      ∃ j, j < hs.length ∧ lastPos name init i hs = i + j + 1 ∧ hs[j]? = some name ∧
        ∀ k, j < k → hs[k]? ≠ some name := by
  induction hs with
  | nil => intro init i hmem; simp at hmem
  | cons h rest ih =>
    intro init i hmem
    by_cases hr : name ∈ rest
    · obtain ⟨j, hj, hpos, hget, hlast⟩ := ih (if h = name then i + 1 else init) (i + 1) hr
      refine ⟨j + 1, by simpa using hj, ?_, by simpa using hget, ?_⟩
      · rw [lastPos, hpos]; omega
      · intro k hk
        obtain ⟨k1, rfl⟩ : ∃ k1, k = k1 + 1 := ⟨k - 1, by omega⟩
        simpa using hlast k1 (by omega)
    · have hh : h = name := by
        rcases List.mem_cons.1 hmem with e | e
        · exact e.symm
        · exact absurd e hr
      refine ⟨0, by simp, ?_, by simp [hh], ?_⟩
      · rw [lastPos, lastPos_of_not_mem name rest _ _ hr]; simp [hh]
      · intro k hk
        obtain ⟨k1, rfl⟩ : ∃ k1, k = k1 + 1 := ⟨k - 1, by omega⟩
        intro e
        exact hr (List.getElem?_mem (by simpa using e))

theorem lastPos_eq_zero_iff (name : String) (hs : List String) :
    lastPos name 0 0 hs = 0 ↔ name ∉ hs := by
  constructor
  · intro h hmem
    obtain ⟨j, _, hpos, _⟩ := lastPos_of_mem name hs 0 0 hmem
    omega
  · exact lastPos_of_not_mem name hs 0 0

theorem scanFixed_eq (hs : List String) : ∀ (cfi : Indexes) (i : Nat),
    scanFixed cfi i hs =
      { groupId := lastPos groupId cfi.groupId i hs
        date := lastPos date cfi.date i hs
        cost := lastPos cost cfi.cost i hs
        currency := lastPos currency cfi.currency i hs
        categoryId := lastPos categoryId cfi.categoryId i hs
        description := lastPos description cfi.description i hs
        details := lastPos details cfi.details i hs
        users := cfi.users } := by
  induction hs with
  | nil => intro cfi i; rfl
  | cons h rest ih =>
    intro cfi i
    rw [scanFixed, ih]
    simp only [lastPos, fixedStep]
    split_ifs <;> simp_all [groupId, date, cost, currency, categoryId, description, details]

theorem slotNames_ne : ∀ u, u < 10 →
    userId u ≠ userPaidShare u ∧ userId u ≠ userOwedShare u ∧
      userPaidShare u ≠ userOwedShare u := by
  decide

theorem length_updateUser (f : UserIndexes → UserIndexes) (l : List UserIndexes) :
    ∀ u, (updateUser f l u).length = l.length := by
  induction l with
  | nil => intro u; rfl
  | cons x xs ih =>
    intro u
    cases u with
    | zero => rfl
    | succ u => simp [updateUser, ih]

theorem getElem?_updateUser (f : UserIndexes → UserIndexes) (l : List UserIndexes) :
    ∀ u k, (updateUser f l u)[k]? = if k = u then l[k]?.map f else l[k]? := by
  induction l with
  | nil => intro u k; simp [updateUser]
  | cons x xs ih =>
    intro u k
    cases u with
    | zero =>
      cases k with
      | zero => simp [updateUser]
      | succ k => simp [updateUser]
    | succ u =>
      cases k with
      | zero => simp [updateUser]
      | succ k => simp [updateUser, ih]

theorem updateUser_updateUser (f g : UserIndexes → UserIndexes) (l : List UserIndexes) (u : Nat) :
    updateUser g (updateUser f l u) u = updateUser (fun x => g (f x)) l u := by
  apply List.ext_getElem?
  intro k
  simp only [getElem?_updateUser]
  split_ifs
  · cases l[k]? <;> rfl
  · rfl

theorem growUsers_of_lt (users : List UserIndexes) (u : Nat) (h : u < users.length) :
    growUsers users u = users := by
  have : u + 1 - users.length = 0 := by omega
  simp [growUsers, this]

theorem length_growUsers (users : List UserIndexes) (u : Nat) :
    u < (growUsers users u).length := by
  simp only [growUsers, List.length_append, List.length_replicate]
  omega

theorem slotFn_cons_of_ne (u i : Nat) (h : String) (rest : List String)
    (h1 : h ≠ userId u) (h2 : h ≠ userPaidShare u) (h3 : h ≠ userOwedShare u) :
    slotFn u i (h :: rest) = slotFn u (i + 1) rest := by
  funext x
  simp [slotFn, lastPos, h1, h2, h3]

theorem scanUser_of_not_seen (u : Nat) (hs : List String) :
    ∀ (users : List UserIndexes) (i : Nat), ¬ slotSeen u hs → scanUser u users i hs = users := by
  induction hs with
  | nil => intro users i _; rfl
  | cons h rest ih =>
    intro users i hseen
    have h1 : h ≠ userId u := fun e => hseen (by simp [slotSeen, e])
    have h2 : h ≠ userPaidShare u := fun e => hseen (by simp [slotSeen, e])
    have h3 : h ≠ userOwedShare u := fun e => hseen (by simp [slotSeen, e])
    have hrest : ¬ slotSeen u rest := by
      intro e
      apply hseen
      rcases e with e | e | e
      · exact Or.inl (List.mem_cons_of_mem _ e)
      · exact Or.inr (Or.inl (List.mem_cons_of_mem _ e))
      · exact Or.inr (Or.inr (List.mem_cons_of_mem _ e))
    rw [scanUser]
    simp only [userStep, h1, h2, h3, if_false]
    exact ih users (i + 1) hrest

theorem scanUser_of_lt (u : Nat) (hu : u < 10) (hs : List String) :
    ∀ (users : List UserIndexes) (i : Nat), u < users.length →
      scanUser u users i hs = updateUser (slotFn u i hs) users u := by
  obtain ⟨n12, n13, n23⟩ := slotNames_ne u hu
  induction hs with
  | nil =>
    intro users i _
    apply List.ext_getElem?
    intro k
    have hid : slotFn u i [] = id := by funext x; cases x; rfl
    simp only [scanUser, getElem?_updateUser, hid, Option.map_id, id, ite_self]
  | cons h rest ih =>
    intro users i hlen
    rw [scanUser]
    by_cases h1 : h = userId u
    · have e : userStep u users i h = updateUser (fun x => { x with userId := i + 1 }) users u := by
        simp [userStep, h1, growUsers_of_lt users u hlen]
      rw [e, ih _ _ (by rw [length_updateUser]; exact hlen), updateUser_updateUser]
      congr 1
      funext x
      simp [slotFn, lastPos, h1, n12, n13, n23, n12.symm, n13.symm, n23.symm]
    · by_cases h2 : h = userPaidShare u
      · have e : userStep u users i h =
            updateUser (fun x => { x with paidShare := i + 1 }) users u := by
          simp [userStep, h2, n12.symm, growUsers_of_lt users u hlen]
        rw [e, ih _ _ (by rw [length_updateUser]; exact hlen), updateUser_updateUser]
        congr 1
        funext x
        simp [slotFn, lastPos, h2, n12, n13, n23, n12.symm, n13.symm, n23.symm]
      · by_cases h3 : h = userOwedShare u
        · have e : userStep u users i h =
              updateUser (fun x => { x with owedShare := i + 1 }) users u := by
            simp [userStep, h3, n13.symm, n23.symm, growUsers_of_lt users u hlen]
          rw [e, ih _ _ (by rw [length_updateUser]; exact hlen), updateUser_updateUser]
          congr 1
          funext x
          simp [slotFn, lastPos, h3, n12, n13, n23, n12.symm, n13.symm, n23.symm]
        · have e : userStep u users i h = users := by simp [userStep, h1, h2, h3]
          rw [e, ih _ _ hlen, slotFn_cons_of_ne u i h rest h1 h2 h3]

theorem scanUser_of_seen (u : Nat) (hu : u < 10) (hs : List String) :
    ∀ (users : List UserIndexes) (i : Nat), slotSeen u hs →
      scanUser u users i hs = updateUser (slotFn u i hs) (growUsers users u) u := by
  obtain ⟨n12, n13, n23⟩ := slotNames_ne u hu
  induction hs with
  | nil => intro users i hseen; simp [slotSeen] at hseen
  | cons h rest ih =>
    intro users i hseen
    rw [scanUser]
    by_cases h1 : h = userId u
    · have e : userStep u users i h =
          updateUser (fun x => { x with userId := i + 1 }) (growUsers users u) u := by
        simp [userStep, h1]
      rw [e, scanUser_of_lt u hu rest _ _
        (by rw [length_updateUser]; exact length_growUsers users u), updateUser_updateUser]
      congr 1
      funext x
      simp [slotFn, lastPos, h1, n12, n13, n23, n12.symm, n13.symm, n23.symm]
    · by_cases h2 : h = userPaidShare u
      · have e : userStep u users i h =
            updateUser (fun x => { x with paidShare := i + 1 }) (growUsers users u) u := by
          simp [userStep, h2, n12.symm]
        rw [e, scanUser_of_lt u hu rest _ _
          (by rw [length_updateUser]; exact length_growUsers users u), updateUser_updateUser]
        congr 1
        funext x
        simp [slotFn, lastPos, h2, n12, n13, n23, n12.symm, n13.symm, n23.symm]
      · by_cases h3 : h = userOwedShare u
        · have e : userStep u users i h =
              updateUser (fun x => { x with owedShare := i + 1 }) (growUsers users u) u := by
            simp [userStep, h3, n13.symm, n23.symm]
          rw [e, scanUser_of_lt u hu rest _ _
            (by rw [length_updateUser]; exact length_growUsers users u), updateUser_updateUser]
          congr 1
          funext x
          simp [slotFn, lastPos, h3, n12, n13, n23, n12.symm, n13.symm, n23.symm]
        · have e : userStep u users i h = users := by simp [userStep, h1, h2, h3]
          have hrest : slotSeen u rest := by
            rcases hseen with e1 | e1 | e1
            · rcases List.mem_cons.1 e1 with e2 | e2
              · exact absurd e2.symm h1
              · exact Or.inl e2
            · rcases List.mem_cons.1 e1 with e2 | e2
              · exact absurd e2.symm h2
              · exact Or.inr (Or.inl e2)
            · rcases List.mem_cons.1 e1 with e2 | e2
              · exact absurd e2.symm h3
              · exact Or.inr (Or.inr e2)
          rw [e, ih _ _ hrest, slotFn_cons_of_ne u i h rest h1 h2 h3]

theorem slotCountUpTo_le (hs : List String) : ∀ n, slotCountUpTo hs n ≤ n := by
  intro n
  induction n with
  | zero => simp [slotCountUpTo]
  | succ n ih =>
    rw [slotCountUpTo]
    split_ifs
    · exact Nat.le_refl _
    · omega

theorem not_seen_of_slotCountUpTo_le (hs : List String) :
    ∀ n k, slotCountUpTo hs n ≤ k → k < n → ¬ slotSeen k hs := by
  intro n
  induction n with
  | zero => intro k _ hk; omega
  | succ n ih =>
    intro k hle hk
    rw [slotCountUpTo] at hle
    split_ifs at hle with hseen
    · omega
    · by_cases hkn : k = n
      · subst hkn; exact hseen
      · exact ih k hle (by omega)

theorem slotOf_of_not_seen (hs : List String) (k : Nat) (h : ¬ slotSeen k hs) :
    slotOf hs k = ⟨0, 0, 0⟩ := by
  have h1 : userId k ∉ hs := fun e => h (Or.inl e)
  have h2 : userPaidShare k ∉ hs := fun e => h (Or.inr (Or.inl e))
  have h3 : userOwedShare k ∉ hs := fun e => h (Or.inr (Or.inr e))
  simp [slotOf, lastPos_of_not_mem _ hs 0 0 h1, lastPos_of_not_mem _ hs 0 0 h2,
    lastPos_of_not_mem _ hs 0 0 h3]

theorem getElem?_growUsers (users : List UserIndexes) (u k : Nat) :
    (growUsers users u)[k]? =
      if k < users.length then users[k]? else if k ≤ u then some ⟨0, 0, 0⟩ else none := by
  unfold growUsers
  by_cases h : k < users.length
  · rw [List.getElem?_append_left h]; simp [h]
  · rw [List.getElem?_append_right (by omega)]
    simp only [h, if_false]
    by_cases h2 : k ≤ u
    · simp only [h2, if_true]
      rw [List.getElem?_eq_getElem (by simp; omega)]
      simp
    · simp only [h2, if_false]
      rw [List.getElem?_eq_none (by simp; omega)]

theorem scanUsers_upTo (hs : List String) : ∀ n, n ≤ 10 →
    (List.range n).foldl (fun users u => scanUser u users 0 hs) [] =
      (List.range (slotCountUpTo hs n)).map (slotOf hs) := by
  intro n
  induction n with
  | zero => intro _; rfl
  | succ n ih =>
    intro hn
    rw [List.range_succ, List.foldl_append, ih (by omega)]
    simp only [List.foldl_cons, List.foldl_nil]
    by_cases hseen : slotSeen n hs
    · rw [scanUser_of_seen n (by omega) hs _ 0 hseen]
      have hc : slotCountUpTo hs (n + 1) = n + 1 := by simp [slotCountUpTo, hseen]
      have hle := slotCountUpTo_le hs n
      rw [hc]
      apply List.ext_getElem?
      intro k
      rw [getElem?_updateUser]
      by_cases hk : k = n
      · subst hk
        have h1 : ¬ k < slotCountUpTo hs k := by omega
        simp [getElem?_growUsers, h1, List.getElem?_range, slotFn, slotOf]
      · simp only [hk, if_false, getElem?_growUsers, List.length_map, List.length_range]
        by_cases h1 : k < slotCountUpTo hs n
        · have h2 : k < n + 1 := by omega
          simp [h1, h2, List.getElem?_range]
        · simp only [h1, if_false]
          by_cases h2 : k ≤ n
          · have h3 : k < n + 1 := by omega
            have h4 := slotOf_of_not_seen hs k
              (not_seen_of_slotCountUpTo_le hs n k (by omega) (by omega))
            simp [h2, h3, List.getElem?_range, h4]
          · have h3 : ¬ k < n + 1 := by omega
            have h5 : (List.range (n + 1))[k]? = none :=
              List.getElem?_eq_none (by rw [List.length_range]; omega)
            simp [h2, h5]
    · rw [scanUser_of_not_seen n hs _ 0 hseen]
      simp [slotCountUpTo, hseen]

theorem scanUsers_eq (hs : List String) :
    scanUsers hs = (List.range (slotCount hs)).map (slotOf hs) :=
  scanUsers_upTo hs 10 (Nat.le_refl 10)

theorem lastPos_lt_one_iff (name : String) (hs : List String) :
    lastPos name 0 0 hs < 1 ↔ name ∉ hs := by
  rw [← lastPos_eq_zero_iff]; omega

theorem validateUserIndexesFrom_eq (hs : List String) : ∀ (n i : Nat),
    validateUserIndexesFrom i ((List.range' i n).map (slotOf hs)) =
      (((List.range' i n).flatMap slotNames).find? (fun name => decide (name ∉ hs))).map
        missingHeader := by
  intro n
  induction n with
  | zero => intro i; rfl
  | succ n ih =>
    intro i
    simp only [List.range'_succ, List.map_cons, validateUserIndexesFrom, List.flatMap_cons,
      validateUserIndexes, slotOf, lastPos_lt_one_iff, slotNames, List.cons_append,
      List.nil_append, List.find?_cons]
    by_cases h1 : userId i ∈ hs <;> by_cases h2 : userPaidShare i ∈ hs <;>
      by_cases h3 : userOwedShare i ∈ hs <;> simp [h1, h2, h3, ih]

theorem validateIndexes_resolved (hs : List String) :
    validateIndexes (resolved hs) =
      ((required hs).find? (fun name => decide (name ∉ hs))).map missingHeader := by
  simp only [validateIndexes, resolved, lastPos_lt_one_iff, required, fixedNames,
    List.cons_append, List.nil_append, List.find?_cons, validateUserIndexesSlice,
    List.range_eq_range', validateUserIndexesFrom_eq]
  by_cases h1 : groupId ∈ hs <;> by_cases h2 : date ∈ hs <;> by_cases h3 : cost ∈ hs <;>
    by_cases h4 : currency ∈ hs <;> by_cases h5 : categoryId ∈ hs <;>
    by_cases h6 : description ∈ hs <;> by_cases h7 : details ∈ hs <;>
    simp [h1, h2, h3, h4, h5, h6, h7]

/-- What `readIndexes` does with a header row: it fails on the first required name the row
lacks, and gives the positions by name otherwise. -/
theorem headerIndexes_eq (hs : List String) :
    headerIndexes hs =
      match (required hs).find? (fun name => decide (name ∉ hs)) with
      | some name => .error (missingHeader name)
      | none => .ok (resolved hs) := by
  have e : ({ scanFixed {} 0 hs with users := scanUsers hs } : Indexes) = resolved hs := by
    rw [scanFixed_eq, scanUsers_eq]; rfl
  unfold headerIndexes
  simp only [e, validateIndexes_resolved]
  cases (required hs).find? (fun name => decide (name ∉ hs)) <;> rfl

/-! ## The decoding of a row -/

theorem Outcome.bind_eq_ok {α β : Type} (x : Outcome α) (f : α → Outcome β) (b : β) :
    x.bind f = .ok b ↔ ∃ a, x = .ok a ∧ f a = .ok b := by
  cases x <;> simp [Outcome.bind]

theorem Outcome.ofOption_eq_ok {α : Type} (o : Option α) (a : α) :
    Outcome.ofOption o = .ok a ↔ o = some a := by
  cases o <;> simp [Outcome.ofOption]

theorem Outcome.ofExcept_eq_ok {α : Type} (x : Except String α) (a : α) :
    Outcome.ofExcept x = .ok a ↔ x = .ok a := by
  cases x <;> simp [Outcome.ofExcept]

theorem usersLoop_of_decodes [PrintTable] (record : List String) (us : List UserIndexes)
    (es : List UserEntry) (h : List.Forall₂ (decodes record) us es) :
    ∀ (tp tw : F64) (acc : List UserEntry),
      usersLoop record us tp tw acc =
        .ok ((es.map UserEntry.PaidShare).foldl F64.add tp,
          (es.map UserEntry.OwedShare).foldl F64.add tw, acc ++ es) := by
  induction h with
  | nil => intro tp tw acc; simp [usersLoop]
  | @cons u e us es hd _ ih =>
    intro tp tw acc
    obtain ⟨h1, h2, h3⟩ := hd
    obtain ⟨ps, hps, hpp⟩ := Option.map_eq_some'.1 h2
    obtain ⟨os, hos, hop⟩ := Option.map_eq_some'.1 h3
    rw [usersLoop]
    simp only [hps, hpp, hos, hop, h1, Outcome.ofOption, Outcome.ofExcept, Outcome.bind, ih]
    cases e
    simp

theorem usersLoop_ok_inv [PrintTable] (record : List String) (us : List UserIndexes) :
    ∀ (tp tw : F64) (acc : List UserEntry) (r : F64 × F64 × List UserEntry),
      usersLoop record us tp tw acc = .ok r →
        ∃ es, List.Forall₂ (decodes record) us es ∧
          r = ((es.map UserEntry.PaidShare).foldl F64.add tp,
            (es.map UserEntry.OwedShare).foldl F64.add tw, acc ++ es) := by
  induction us with
  | nil =>
    intro tp tw acc r h
    refine ⟨[], List.Forall₂.nil, ?_⟩
    simp only [usersLoop, Outcome.ok.injEq] at h
    simp [← h]
  | cons u us ih =>
    intro tp tw acc r h
    rw [usersLoop] at h
    simp only [Outcome.bind_eq_ok, Outcome.ofOption_eq_ok, Outcome.ofExcept_eq_ok] at h
    obtain ⟨ps, hps, p, hp, os, hos, o, ho, uid, huid, hrest⟩ := h
    obtain ⟨es, hes, hr⟩ := ih _ _ _ _ hrest
    refine ⟨⟨uid, p, o⟩ :: es, List.Forall₂.cons ⟨huid, ?_, ?_⟩ hes, ?_⟩
    · simp [hps, hp]
    · simp [hos, ho]
    · simp [hr]

theorem ucmp_hundred (m : Nat) (e : Int) :
    7036874417766400 * 2 ^ ((-46 : Int) - min (-46) e).toNat = m * 2 ^ (e - min (-46) e).toNat ↔
      (m : ℚ) * (2 : ℚ) ^ e = 100 := by
  have h2 : (2 : ℚ) ≠ 0 := by norm_num
  have k1 : 0 ≤ (-46 : Int) - min (-46) e := by omega
  have k2 : 0 ≤ e - min (-46) e := by omega
  have hc : (2 : ℚ) ^ (min (-46) e) ≠ 0 := zpow_ne_zero _ h2
  have h100 : (7036874417766400 : ℚ) * (2 : ℚ) ^ (-46 : ℤ) = 100 := by norm_num
  rw [← Nat.cast_inj (R := ℚ)]
  push_cast
  rw [← zpow_natCast, ← zpow_natCast, Int.toNat_of_nonneg k1, Int.toNat_of_nonneg k2,
    zpow_sub₀ h2, zpow_sub₀ h2, ← mul_div_assoc, ← mul_div_assoc, div_left_inj' hc, h100]
  exact eq_comm

theorem cmp_hundred_fin (neg : Bool) (m : Nat) (e : Int) :
    BigFloat.cmp (.fin false 7036874417766400 (-46)) (.fin neg m e) = 0 ↔
      (F64.fin neg m e).is100 := by
  have hpos : (0 : ℚ) < (2 : ℚ) ^ e := zpow_pos (by norm_num) e
  by_cases hm : m = 0
  · subst hm
    simp [BigFloat.cmp, BigFloat.ord, F64.is100, F64.toRat, F64.signed]
  · have hmq : (0 : ℚ) < (m : ℚ) := by exact_mod_cast Nat.pos_of_ne_zero hm
    cases neg with
    | true =>
      have hneg : ¬ -((m : ℚ) * (2 : ℚ) ^ e) = 100 := by
        have : -((m : ℚ) * (2 : ℚ) ^ e) < 0 := neg_neg_of_pos (mul_pos hmq hpos)
        linarith
      simp [BigFloat.cmp, BigFloat.ord, F64.is100, F64.toRat, F64.signed, hm, hneg]
    | false =>
      have key := ucmp_hundred m e
      simp only [BigFloat.cmp, BigFloat.ord, BigFloat.ucmp, F64.is100, F64.toRat, F64.signed,
        F64.isFinite, hm, if_false, true_and]
      simp only [Bool.false_eq_true, if_false, Int.cast_natCast, ← key]
      norm_num
      constructor
      · intro h
        split_ifs at h with h1 h2 <;> omega
      · intro h
        simp [h]

theorem notHundred_nan : notHundred .nan = .crash := rfl

theorem notHundred_of_ne_nan (t : F64) (h : t ≠ .nan) :
    notHundred t = .ok (decide (¬ t.is100)) := by
  cases t with
  | nan => exact absurd rfl h
  | inf neg =>
    cases neg <;>
      simp [notHundred, bigNewFloat, F64.hundred, Outcome.ofOption, Outcome.bind, BigFloat.cmp,
        BigFloat.ord, F64.is100, F64.isFinite]
  | fin neg m e =>
    have key := cmp_hundred_fin neg m e
    simp only [notHundred, bigNewFloat, F64.hundred, Outcome.ofOption, Outcome.bind, ne_eq, key]

theorem notHundred_eq_false (t : F64) (h : notHundred t = .ok false) : t.is100 := by
  cases ht : t with
  | nan => rw [ht, notHundred_nan] at h; exact absurd h (by simp)
  | inf neg =>
    rw [← ht]
    rw [notHundred_of_ne_nan t (by simp [ht])] at h
    simpa using h
  | fin neg m e =>
    rw [← ht]
    rw [notHundred_of_ne_nan t (by simp [ht])] at h
    simpa using h

theorem notHundred_of_is100 (t : F64) (h : t.is100) : notHundred t = .ok false := by
  have hn : t ≠ .nan := by
    intro e; rw [e] at h; simp [F64.is100, F64.isFinite] at h
  rw [notHundred_of_ne_nan t hn]; simp [h]

theorem notHundred_of_not_is100 (t : F64) (hn : t ≠ .nan) (h : ¬ t.is100) :
    notHundred t = .ok true := by
  rw [notHundred_of_ne_nan t hn]; simp [h]

theorem is100_iff (t : F64) : t.is100 ↔ notHundred t = .ok false :=
  ⟨notHundred_of_is100 t, notHundred_eq_false t⟩

/-- The result of `entryFromRecord` on a record all of whose fields are there and parse. -/
theorem entryFromRecord_of_decodes [PrintTable] (record : List String) (idxs : Indexes)
    (g d cur cat desc det c : String) (cv : F64) (es : List UserEntry)
    (hg : field record idxs.groupId = some g) (hd : field record idxs.date = some d)
    (hcur : field record idxs.currency = some cur)
    (hcat : field record idxs.categoryId = some cat)
    (hdesc : field record idxs.description = some desc)
    (hdet : field record idxs.details = some det)
    (hc : field record idxs.cost = some c) (hcv : parseFloat c = .ok cv)
    (hes : List.Forall₂ (decodes record) idxs.users es) :
    entryFromRecord record idxs =
      (notHundred (F64.sum (es.map UserEntry.PaidShare))).bind fun badPaid =>
        if badPaid then
          .error ("total paid share is not 100 (" ++
            fmtFloat (F64.sum (es.map UserEntry.PaidShare)) ++ ")")
        else
          (notHundred (F64.sum (es.map UserEntry.OwedShare))).bind fun badOwed =>
            if badOwed then
              .error ("total owed share is not 100 (" ++
                fmtFloat (F64.sum (es.map UserEntry.OwedShare)) ++ ")")
            else .ok ⟨g, d, cv, cur, cat, desc, det, es⟩ := by
  unfold entryFromRecord
  simp only [hg, hd, hcur, hcat, hdesc, hdet, hc, hcv, Outcome.ofOption, Outcome.ofExcept,
    Outcome.bind, usersLoop_of_decodes record idxs.users es hes, List.nil_append, F64.sum]

theorem entryFromRecord_ok_inv [PrintTable] (record : List String) (idxs : Indexes) (e : Entry)
    (h : entryFromRecord record idxs = .ok e) :
    field record idxs.groupId = some e.GroupId ∧ field record idxs.date = some e.Date ∧
      field record idxs.currency = some e.Currency ∧
      field record idxs.categoryId = some e.CategoryId ∧
      field record idxs.description = some e.Description ∧
      field record idxs.details = some e.Details ∧
      (field record idxs.cost).map parseFloat = some (.ok e.Cost) ∧
      List.Forall₂ (decodes record) idxs.users e.Users ∧
      (F64.sum (e.Users.map UserEntry.PaidShare)).is100 ∧
      (F64.sum (e.Users.map UserEntry.OwedShare)).is100 := by
  unfold entryFromRecord at h
  simp only [Outcome.bind_eq_ok, Outcome.ofOption_eq_ok, Outcome.ofExcept_eq_ok] at h
  obtain ⟨g, hg, d, hd, cur, hcur, cat, hcat, desc, hdesc, det, hdet, c, hc, cv, hcv, totals,
    hloop, badPaid, hbp, hrest⟩ := h
  obtain ⟨es, hes, rfl⟩ := usersLoop_ok_inv record idxs.users _ _ _ _ hloop
  cases badPaid with
  | true => simp at hrest
  | false =>
    simp only [Bool.false_eq_true, if_false, Outcome.bind_eq_ok] at hrest
    obtain ⟨badOwed, hbo, hrest⟩ := hrest
    cases badOwed with
    | true => simp at hrest
    | false =>
      simp only [Bool.false_eq_true, if_false, Outcome.ok.injEq] at hrest
      subst hrest
      simp only [List.nil_append] at hbp hbo ⊢
      exact ⟨hg, hd, hcur, hcat, hdesc, hdet, by simp [hc, hcv], hes,
        notHundred_eq_false _ hbp, notHundred_eq_false _ hbo⟩

/-! ## Resolved header rows -/

theorem resolved_of_ok (hs : List String) (idxs : Indexes) (h : headerIndexes hs = .ok idxs) :
    idxs = resolved hs ∧ ∀ name ∈ required hs, name ∈ hs := by
  rw [headerIndexes_eq] at h
  cases hfind : (required hs).find? (fun name => decide (name ∉ hs)) with
  | some name => rw [hfind] at h; simp at h
  | none =>
    rw [hfind] at h
    simp only [Except.ok.injEq] at h
    refine ⟨h.symm, ?_⟩
    intro name hname
    have := List.find?_eq_none.1 hfind name hname
    simpa using this

theorem headerIndexes_of_required (hs : List String) (h : ∀ name ∈ required hs, name ∈ hs) :
    headerIndexes hs = .ok (resolved hs) := by
  rw [headerIndexes_eq]
  have hfind : (required hs).find? (fun name => decide (name ∉ hs)) = none := by
    rw [List.find?_eq_none]
    intro name hname
    simpa using h name hname
  rw [hfind]

theorem slotNames_subset_required (hs : List String) (k : Nat) (hk : k < slotCount hs) :
    ∀ name ∈ slotNames k, name ∈ required hs := by
  intro name hname
  unfold required
  refine List.mem_append_right _ (List.mem_flatMap.2 ⟨k, ?_, hname⟩)
  simpa using hk

theorem field_lastPos_of_mem (hs row : List String) (name : String)
    (hlen : hs.length ≤ row.length) (hmem : name ∈ hs) :
    ∃ v, field row (lastPos name 0 0 hs) = some v := by
  obtain ⟨j, hj, hpos, _, _⟩ := lastPos_of_mem name hs 0 0 hmem
  have hjr : j < row.length := by omega
  refine ⟨row[j], ?_⟩
  rw [hpos, field]
  simp [List.getElem?_eq_getElem hjr]

theorem field_lastPos_of_nodup (hs row : List String) (name : String) (hnd : hs.Nodup)
    (hmem : name ∈ hs) : field row (lastPos name 0 0 hs) = fieldUnder hs row name := by
  obtain ⟨j, hj, hpos, hget, _⟩ := lastPos_of_mem name hs 0 0 hmem
  have e1 : hs[j] = name := by
    rw [List.getElem?_eq_getElem hj] at hget
    exact Option.some.inj hget
  have e2 : hs.indexOf name = j := by
    rw [← e1]; exact List.indexOf_getElem hnd j hj
  rw [hpos, field, fieldUnder, if_pos hmem, e2]
  simp

theorem field_lastPos_of_not_mem (hs row : List String) (name : String) (hmem : name ∉ hs) :
    field row (lastPos name 0 0 hs) = none := by
  rw [lastPos_of_not_mem name hs 0 0 hmem]; rfl

theorem getElem_resolved_users (hs : List String) (k : Nat)
    (hk : k < (resolved hs).users.length) : (resolved hs).users[k] = slotOf hs k := by
  simp [resolved]

theorem length_resolved_users (hs : List String) :
    (resolved hs).users.length = slotCount hs := by
  simp [resolved]

theorem fixedNames_subset_required (hs : List String) :
    ∀ name ∈ fixedNames, name ∈ required hs := by
  intro name hname
  exact List.mem_append_left _ hname

/-- C1. For a header row with unique names that resolves and a row that decodes, each text
field of the entry is the row's field under the header of that name, unchanged; the cost is the
number parsed from the field under `cost`; and the users are, slot by slot in ascending order,
the field under `users__k__user_id` and the numbers parsed from the fields under
`users__k__paid_share` and `users__k__owed_share`, one user for each resolved slot. -/
theorem decode_by_name [PrintTable] (headers row : List String) (idxs : Indexes) (e : Entry)
    (hnd : headers.Nodup) (hres : headerIndexes headers = .ok idxs)
    (hdec : entryFromRecord row idxs = .ok e) :
    fieldUnder headers row groupId = some e.GroupId ∧
      fieldUnder headers row date = some e.Date ∧
      fieldUnder headers row currency = some e.Currency ∧
      fieldUnder headers row categoryId = some e.CategoryId ∧
      fieldUnder headers row description = some e.Description ∧
      fieldUnder headers row details = some e.Details ∧
      (fieldUnder headers row cost).map parseFloat = some (.ok e.Cost) ∧
      e.Users.length = idxs.users.length ∧
      ∀ (k : Nat) (hk : k < e.Users.length),
        fieldUnder headers row (userId k) = some e.Users[k].UserId ∧
          (fieldUnder headers row (userPaidShare k)).map parseFloat =
            some (.ok e.Users[k].PaidShare) ∧
          (fieldUnder headers row (userOwedShare k)).map parseFloat =
            some (.ok e.Users[k].OwedShare) := by
  obtain ⟨rfl, hreq⟩ := resolved_of_ok headers idxs hres
  obtain ⟨h1, h2, h3, h4, h5, h6, h7, hus, _, _⟩ := entryFromRecord_ok_inv row _ e hdec
  have hfix : ∀ name ∈ fixedNames, name ∈ headers := fun name hn =>
    hreq name (fixedNames_subset_required headers name hn)
  have key : ∀ name ∈ fixedNames,
      field row (lastPos name 0 0 headers) = fieldUnder headers row name := fun name hn =>
    field_lastPos_of_nodup headers row name hnd (hfix name hn)
  rw [List.forall₂_iff_get] at hus
  refine ⟨?_, ?_, ?_, ?_, ?_, ?_, ?_, hus.1.symm, ?_⟩
  · rw [← key groupId (by simp [fixedNames])]; exact h1
  · rw [← key date (by simp [fixedNames])]; exact h2
  · rw [← key currency (by simp [fixedNames])]; exact h3
  · rw [← key categoryId (by simp [fixedNames])]; exact h4
  · rw [← key description (by simp [fixedNames])]; exact h5
  · rw [← key details (by simp [fixedNames])]; exact h6
  · rw [← key cost (by simp [fixedNames])]; exact h7
  · intro k hk
    have hk1 : k < (resolved headers).users.length := by rw [hus.1]; exact hk
    have hk2 : k < slotCount headers := by rw [← length_resolved_users]; exact hk1
    have hd := hus.2 k hk1 hk
    simp only [List.get_eq_getElem, getElem_resolved_users headers k hk1, decodes, slotOf] at hd
    have hin : ∀ name ∈ slotNames k, name ∈ headers := fun name hn =>
      hreq name (slotNames_subset_required headers k hk2 name hn)
    rw [field_lastPos_of_nodup headers row _ hnd (hin _ (by simp [slotNames])),
      field_lastPos_of_nodup headers row _ hnd (hin _ (by simp [slotNames])),
      field_lastPos_of_nodup headers row _ hnd (hin _ (by simp [slotNames]))] at hd
    exact hd

theorem decode_by_name_witness :
    fieldUnder sampleHeader sampleRow groupId = some sampleEntry.GroupId ∧
      fieldUnder sampleHeader sampleRow date = some sampleEntry.Date ∧
      fieldUnder sampleHeader sampleRow currency = some sampleEntry.Currency ∧
      fieldUnder sampleHeader sampleRow categoryId = some sampleEntry.CategoryId ∧
      fieldUnder sampleHeader sampleRow description = some sampleEntry.Description ∧
      fieldUnder sampleHeader sampleRow details = some sampleEntry.Details ∧
      (fieldUnder sampleHeader sampleRow cost).map parseFloat = some (.ok sampleEntry.Cost) ∧
      sampleEntry.Users.length = sampleIndexes.users.length ∧
      ∀ (k : Nat) (hk : k < sampleEntry.Users.length),
        fieldUnder sampleHeader sampleRow (userId k) = some sampleEntry.Users[k].UserId ∧
          (fieldUnder sampleHeader sampleRow (userPaidShare k)).map parseFloat =
            some (.ok sampleEntry.Users[k].PaidShare) ∧
          (fieldUnder sampleHeader sampleRow (userOwedShare k)).map parseFloat =
            some (.ok sampleEntry.Users[k].OwedShare) :=
  decode_by_name sampleHeader sampleRow sampleIndexes sampleEntry (by decide) (by decide)
    (by decide)

/-! ## The loop over the rows -/

theorem readRows_ok_inv [PrintTable] (idxs : Indexes) (r : Reader) :
    ∀ (row : Nat) (acc entries : List Entry) (rest : Reader),
      readRows idxs row acc r = (.ok entries, rest) →
        ∃ es, entries = acc ++ es ∧
          ∀ e ∈ es, ∃ record, Except.ok record ∈ r ∧ entryFromRecord record idxs = .ok e := by
  induction r with
  | nil =>
    intro row acc entries rest h
    simp only [readRows, Prod.mk.injEq, Outcome.ok.injEq] at h
    exact ⟨[], by simp [h.1], by simp⟩
  | cons x r ih =>
    intro row acc entries rest h
    cases x with
    | error err => simp [readRows] at h
    | ok record =>
      rw [readRows] at h
      cases hrec : entryFromRecord record idxs with
      | ok entry =>
        rw [hrec] at h
        obtain ⟨es, hes, hall⟩ := ih _ _ _ _ h
        refine ⟨entry :: es, by simp [hes], ?_⟩
        intro e he
        rcases List.mem_cons.1 he with rfl | he
        · exact ⟨record, by simp, hrec⟩
        · obtain ⟨rec2, hmem, hdec⟩ := hall e he
          exact ⟨rec2, List.mem_cons_of_mem _ hmem, hdec⟩
      | error err => rw [hrec] at h; simp at h
      | crash => rw [hrec] at h; simp at h

theorem read_ok_inv [PrintTable] (r : Reader) (entries : List Entry) (rest : Reader)
    (h : read r = (.ok entries, rest)) :
    ∃ hs r1 idxs, r = .ok hs :: r1 ∧ headerIndexes hs = .ok idxs ∧
      readRows idxs 1 [] r1 = (.ok entries, rest) := by
  cases r with
  | nil => simp [read, readIndexes] at h
  | cons x r1 =>
    cases x with
    | error err => simp [read, readIndexes] at h
    | ok hs =>
      cases hidx : headerIndexes hs with
      | error err => simp [read, readIndexes, hidx] at h
      | ok idxs =>
        refine ⟨hs, r1, idxs, rfl, hidx, ?_⟩
        simpa [read, readIndexes, hidx] using h

/-- C2, as the code has it. On every input on which `read` succeeds, every entry returned has
paid shares whose float64 sum, accumulated from `+0` in the order of the users with a rounding
to the nearest float64 at each addition, is a finite number equal to 100, and owed shares
whose float64 sum, accumulated in the same way, is a finite number equal to 100. -/
theorem share_totals_float_hundred [PrintTable] (r : Reader) (entries : List Entry) (rest : Reader)
    (h : read r = (.ok entries, rest)) :
    ∀ e ∈ entries,
      (F64.sum (e.Users.map UserEntry.PaidShare)).is100 ∧
        (F64.sum (e.Users.map UserEntry.OwedShare)).is100 := by
  obtain ⟨hs, r1, idxs, _, _, hrows⟩ := read_ok_inv r entries rest h
  obtain ⟨es, hes, hall⟩ := readRows_ok_inv idxs r1 1 [] entries rest hrows
  intro e he
  rw [hes, List.nil_append] at he
  obtain ⟨record, _, hdec⟩ := hall e he
  obtain ⟨_, _, _, _, _, _, _, _, hp, ho⟩ := entryFromRecord_ok_inv record idxs e hdec
  exact ⟨hp, ho⟩

theorem share_totals_float_hundred_witness :
    (F64.sum (sampleEntry.Users.map UserEntry.PaidShare)).is100 ∧
      (F64.sum (sampleEntry.Users.map UserEntry.OwedShare)).is100 :=
  share_totals_float_hundred [.ok sampleHeader, .ok sampleRow] [sampleEntry] [] (by decide)
    sampleEntry (List.mem_singleton.2 rfl)

/-- C2, as stated, fails: `read` succeeds on a row whose paid shares are 70.1 and 29.9, and the
exact sum of the two float64 values stored in the entry is not 100. -/
theorem share_totals_exact_counterexample :
    (read [.ok sampleHeader, .ok sampleRow]).1 = .ok [sampleEntry] ∧
      (sampleEntry.Users.map (fun u => u.PaidShare.toRat)).sum ≠ 100 := by
  refine ⟨by decide, ?_⟩
  simp only [sampleEntry, List.map_cons, List.map_nil, List.sum_cons, List.sum_nil, F64.toRat,
    F64.signed]
  norm_num

theorem fixed_fields_of_ok (hs row : List String) (idxs : Indexes)
    (hres : headerIndexes hs = .ok idxs) (hlen : row.length = hs.length) :
    ∃ g d c cur cat desc det, field row idxs.groupId = some g ∧ field row idxs.date = some d ∧
      field row idxs.cost = some c ∧ field row idxs.currency = some cur ∧
      field row idxs.categoryId = some cat ∧ field row idxs.description = some desc ∧
      field row idxs.details = some det := by
  obtain ⟨rfl, hreq⟩ := resolved_of_ok hs idxs hres
  have key : ∀ name ∈ fixedNames, ∃ v, field row (lastPos name 0 0 hs) = some v :=
    fun name hn => field_lastPos_of_mem hs row name (by omega)
      (hreq name (fixedNames_subset_required hs name hn))
  obtain ⟨g, hg⟩ := key groupId (by simp [fixedNames])
  obtain ⟨d, hd⟩ := key date (by simp [fixedNames])
  obtain ⟨c, hc⟩ := key cost (by simp [fixedNames])
  obtain ⟨cur, hcur⟩ := key currency (by simp [fixedNames])
  obtain ⟨cat, hcat⟩ := key categoryId (by simp [fixedNames])
  obtain ⟨desc, hdesc⟩ := key description (by simp [fixedNames])
  obtain ⟨det, hdet⟩ := key details (by simp [fixedNames])
  exact ⟨g, d, c, cur, cat, desc, det, hg, hd, hc, hcur, hcat, hdesc, hdet⟩

/-- C3, as the code has it. For a resolved header and a row of the same field count whose cost
field is a number and whose share fields are numbers that, rounded to float64 and added in
float64 from `+0` in the order of the slots, give exactly 100 for the paid shares and exactly
100 for the owed shares, `entryFromRecord` succeeds, with the users decoded from the slots in
ascending order, whatever the number of slots. -/
theorem accept_float_hundred [PrintTable] (hs row : List String) (idxs : Indexes) (cv : F64)
    (es : List UserEntry) (hres : headerIndexes hs = .ok idxs) (hlen : row.length = hs.length)
    (hcost : (field row idxs.cost).map parseFloat = some (.ok cv))
    (hshares : List.Forall₂ (decodes row) idxs.users es)
    (hpaid : (F64.sum (es.map UserEntry.PaidShare)).is100)
    (howed : (F64.sum (es.map UserEntry.OwedShare)).is100) :
    ∃ e, entryFromRecord row idxs = .ok e ∧ e.Cost = cv ∧ e.Users = es := by
  obtain ⟨g, d, c, cur, cat, desc, det, hg, hd, hc, hcur, hcat, hdesc, hdet⟩ :=
    fixed_fields_of_ok hs row idxs hres hlen
  have hcv : parseFloat c = .ok cv := by simpa [hc] using hcost
  refine ⟨⟨g, d, cv, cur, cat, desc, det, es⟩, ?_, rfl, rfl⟩
  rw [entryFromRecord_of_decodes row idxs g d cur cat desc det c cv es hg hd hcur hcat hdesc
    hdet hc hcv hshares, notHundred_of_is100 _ hpaid, notHundred_of_is100 _ howed]
  rfl

theorem accept_float_hundred_witness :
    ∃ e, entryFromRecord threeGoodRow threeIndexes = .ok e ∧
      e.Cost = .fin false 6333186975989760 (-46) ∧ e.Users = threeGoodUsers :=
  accept_float_hundred threeHeader threeGoodRow threeIndexes
    (.fin false 6333186975989760 (-46)) threeGoodUsers (by decide) (by decide) (by decide)
    (List.Forall₂.cons (by decide) (List.Forall₂.cons (by decide)
      (List.Forall₂.cons (by decide) List.Forall₂.nil)))
    (by rw [is100_iff]; decide) (by rw [is100_iff]; decide)

/-- C3, as stated, fails: the paid shares 33.4, 33.3 and 33.3 are valid decimal numbers whose
exact sum is 100, the owed shares 50, 25 and 25 likewise, and `entryFromRecord` rejects the
row, the float64 sum of the paid shares being 99.99999999999999. -/
theorem accept_exact_hundred_counterexample :
    headerIndexes threeHeader = .ok threeIndexes ∧ threeRow.length = threeHeader.length ∧
      exactValue "33.4" = some (334 / 10) ∧ exactValue "33.3" = some (333 / 10) ∧
      ((334 : ℚ) / 10 + 333 / 10 + 333 / 10 = 100) ∧
      exactValue "50" = some 50 ∧ exactValue "25" = some 25 ∧ ((50 : ℚ) + 25 + 25 = 100) ∧
      entryFromRecord threeRow threeIndexes =
        .error "total paid share is not 100 (100.000000)" := by
  have p1 : readFloat "33.4".toList = some ⟨false, false, 334, -1⟩ := by decide
  have p2 : readFloat "33.3".toList = some ⟨false, false, 333, -1⟩ := by decide
  have p3 : readFloat "50".toList = some ⟨false, false, 50, 0⟩ := by decide
  have p4 : readFloat "25".toList = some ⟨false, false, 25, 0⟩ := by decide
  refine ⟨by decide, by decide, ?_, ?_, by norm_num, ?_, ?_, by norm_num, by decide⟩
  · simp only [exactValue, p1, Option.map_some', Parsed.toRat, F64.signed]; norm_num
  · simp only [exactValue, p2, Option.map_some', Parsed.toRat, F64.signed]; norm_num
  · simp only [exactValue, p3, Option.map_some', Parsed.toRat, F64.signed]; norm_num
  · simp only [exactValue, p4, Option.map_some', Parsed.toRat, F64.signed]; norm_num

/-! ## Missing headers -/

theorem headerIndexes_of_only_missing (hs : List String) (name : String)
    (hname : name ∈ required hs) (habs : name ∉ hs)
    (honly : ∀ n ∈ required hs, n ∉ hs → n = name) :
    headerIndexes hs = .error (missingHeader name) := by
  rw [headerIndexes_eq]
  cases hfind : (required hs).find? (fun n => decide (n ∉ hs)) with
  | none =>
    have := List.find?_eq_none.1 hfind name hname
    simp [habs] at this
  | some n =>
    have h1 : n ∈ required hs := List.mem_of_find?_eq_some hfind
    have h2 : n ∉ hs := by simpa using List.find?_some hfind
    rw [honly n h1 h2]

/-- C4, as the code has it. When a header row lacks exactly one of the names `readIndexes`
requires of it (the seven fixed names, and the three names of every slot from 0 up to the
highest slot below ten of which the row holds a name), `readIndexes` fails with the message
`missing "<name>" header` for exactly that name, whatever the other headers. -/
theorem missing_header_named (hs : List String) (rest : Reader) (name : String)
    (hname : name ∈ required hs) (habs : name ∉ hs)
    (honly : ∀ n ∈ required hs, n ∉ hs → n = name) :
    (readIndexes (.ok hs :: rest)).1 = .error ("missing \"" ++ name ++ "\" header") :=
  headerIndexes_of_only_missing hs name hname habs honly

theorem missing_header_named_witness :
    (readIndexes [.ok lackingHeader]).1 =
      .error ("missing \"" ++ "users__0__paid_share" ++ "\" header") :=
  missing_header_named lackingHeader [] "users__0__paid_share" (by decide) (by decide)
    (by decide)

/-- C4, as stated, fails: `gapHeader` has the seven fixed names and, of the slots of which it
holds a name, lacks only `users__1__owed_share`, and `readIndexes` names
`users__0__user_id`. -/
theorem missing_header_counterexample :
    (requiredOwnSlots gapHeader).filter (fun n => decide (n ∉ gapHeader)) =
        ["users__1__owed_share"] ∧
      (readIndexes [.ok gapHeader]).1 = .error "missing \"users__0__user_id\" header" := by
  decide

/-! ## Which slots a header row creates -/

theorem lt_slotCount_of_seen (hs : List String) (u : Nat) (hu : u < 10)
    (hseen : slotSeen u hs) : u < slotCount hs := by
  by_contra hlt
  exact not_seen_of_slotCountUpTo_le hs 10 u (by unfold slotCount at hlt; omega) hu hseen

theorem slotCount_eq_zero (hs : List String) (h : ∀ u, u < 10 → ¬ slotSeen u hs) :
    slotCount hs = 0 := by
  simp [slotCount, slotCountUpTo, h]

theorem slotCount_le_ten (hs : List String) : slotCount hs ≤ 10 :=
  slotCountUpTo_le hs 10

theorem fixedNames_not_seen : ∀ u, u < 10 → ¬ slotSeen u fixedNames := by
  decide

theorem fixedNames_nodup : fixedNames.Nodup := by
  decide

theorem nodup_of_get_names (hs : List String) (ps : List Nat) (names : List String)
    (h : List.Forall₂ (fun p name => hs[p - 1]? = some name) ps names) (hnd : names.Nodup) :
    ps.Nodup := by
  induction h with
  | nil => exact List.nodup_nil
  | @cons p name ps names hp hrest ih =>
    rw [List.nodup_cons] at hnd ⊢
    refine ⟨?_, ih hnd.2⟩
    intro hmem
    apply hnd.1
    obtain ⟨name2, hmem2, hget2⟩ : ∃ name2, name2 ∈ names ∧ hs[p - 1]? = some name2 := by
      clear ih hnd hp
      induction hrest with
      | nil => simp at hmem
      | @cons q n qs ns hq _ ih2 =>
        rcases List.mem_cons.1 hmem with e | e
        · exact ⟨n, by simp, by rw [e]; exact hq⟩
        · obtain ⟨n2, hn2, hg⟩ := ih2 e
          exact ⟨n2, List.mem_cons_of_mem _ hn2, hg⟩
    have : name = name2 := by
      rw [hp] at hget2; exact Option.some.inj hget2
    rw [this]; exact hmem2

theorem get_lastPos_of_mem (hs : List String) (name : String) (hmem : name ∈ hs) :
    1 ≤ lastPos name 0 0 hs ∧ lastPos name 0 0 hs ≤ hs.length ∧
      hs[lastPos name 0 0 hs - 1]? = some name := by
  obtain ⟨j, hj, hpos, hget, _⟩ := lastPos_of_mem name hs 0 0 hmem
  rw [hpos]
  refine ⟨by omega, by omega, ?_⟩
  simpa using hget

/-- C6. A header row that is a permutation of the seven fixed names resolves, with no user
slot, seven pairwise distinct positions, and at each position (counted from one) the header of
the field's name. -/
theorem fixed_only_headers_resolve (hs : List String) (rest : Reader)
    (hperm : hs.Perm fixedNames) :
    ∃ idxs, (readIndexes (.ok hs :: rest)).1 = .ok idxs ∧ idxs.users = [] ∧
      idxs.fixedPositions.Nodup ∧
      List.Forall₂ (fun p name => 1 ≤ p ∧ hs[p - 1]? = some name) idxs.fixedPositions
        fixedNames := by
  have hmem : ∀ name, name ∈ hs ↔ name ∈ fixedNames := fun name => hperm.mem_iff
  have hnot : ∀ u, u < 10 → ¬ slotSeen u hs := by
    intro u hu hseen
    apply fixedNames_not_seen u hu
    unfold slotSeen at hseen ⊢
    simpa only [hmem] using hseen
  have hcount : slotCount hs = 0 := slotCount_eq_zero hs hnot
  have hreq : ∀ name ∈ required hs, name ∈ hs := by
    intro name hname
    simp only [required, hcount, List.range_zero, List.flatMap_nil, List.append_nil] at hname
    exact (hmem name).2 hname
  have hpos : List.Forall₂ (fun p name => 1 ≤ p ∧ hs[p - 1]? = some name)
      (resolved hs).fixedPositions fixedNames := by
    have key : ∀ name ∈ fixedNames,
        1 ≤ lastPos name 0 0 hs ∧ hs[lastPos name 0 0 hs - 1]? = some name := fun name hn =>
      ⟨(get_lastPos_of_mem hs name ((hmem name).2 hn)).1,
        (get_lastPos_of_mem hs name ((hmem name).2 hn)).2.2⟩
    simp only [Indexes.fixedPositions, resolved, fixedNames]
    refine List.Forall₂.cons (key _ (by simp [fixedNames])) (List.Forall₂.cons
      (key _ (by simp [fixedNames])) (List.Forall₂.cons (key _ (by simp [fixedNames]))
      (List.Forall₂.cons (key _ (by simp [fixedNames])) (List.Forall₂.cons
      (key _ (by simp [fixedNames])) (List.Forall₂.cons (key _ (by simp [fixedNames]))
      (List.Forall₂.cons (key _ (by simp [fixedNames])) List.Forall₂.nil))))))
  refine ⟨resolved hs, headerIndexes_of_required hs hreq, ?_, ?_, hpos⟩
  · simp [resolved, hcount]
  · exact nodup_of_get_names hs _ fixedNames (hpos.imp (fun _ _ h => h.2)) fixedNames_nodup

theorem fixed_only_headers_resolve_witness :
    ∃ idxs, (readIndexes [.ok fixedNames.reverse]).1 = .ok idxs ∧ idxs.users = [] ∧
      idxs.fixedPositions.Nodup ∧
      List.Forall₂ (fun p name => 1 ≤ p ∧ fixedNames.reverse[p - 1]? = some name)
        idxs.fixedPositions fixedNames :=
  fixed_only_headers_resolve fixedNames.reverse [] (List.reverse_perm fixedNames)

theorem find_required_of_fixed (hs : List String) (hfixed : ∀ name ∈ fixedNames, name ∈ hs) :
    (required hs).find? (fun n => decide (n ∉ hs)) =
      ((List.range (slotCount hs)).flatMap slotNames).find? (fun n => decide (n ∉ hs)) := by
  have h1 : fixedNames.find? (fun n => decide (n ∉ hs)) = none := by
    rw [List.find?_eq_none]
    intro name hname
    simpa using hfixed name hname
  rw [required, List.find?_append, h1, Option.none_or]

/-- C7, as the code has it. A header row with the seven fixed names and the three names of
slot 1 but no name of slot 0 does not resolve: `readIndexes` fails with
`missing "users__0__user_id" header`. In general, when a header row holds a name of a slot `u`
below ten and resolves, every slot `k ≤ u` has been created and all three of its names occur
in the row. -/
theorem slot_gap_rejected (hs : List String) (rest : Reader)
    (hfixed : ∀ name ∈ fixedNames, name ∈ hs)
    (hone : userId 1 ∈ hs ∧ userPaidShare 1 ∈ hs ∧ userOwedShare 1 ∈ hs)
    (hzero : userId 0 ∉ hs ∧ userPaidShare 0 ∉ hs ∧ userOwedShare 0 ∉ hs) :
    (readIndexes (.ok hs :: rest)).1 = .error "missing \"users__0__user_id\" header" ∧
      ∀ (hs2 : List String) (idxs : Indexes) (u k : Nat), u < 10 → slotSeen u hs2 → k ≤ u →
        headerIndexes hs2 = .ok idxs →
          k < idxs.users.length ∧ userId k ∈ hs2 ∧ userPaidShare k ∈ hs2 ∧
            userOwedShare k ∈ hs2 := by
  constructor
  · have hc : 1 < slotCount hs := lt_slotCount_of_seen hs 1 (by omega) (Or.inl hone.1)
    obtain ⟨c, hc2⟩ : ∃ c, slotCount hs = c + 1 := ⟨slotCount hs - 1, by omega⟩
    show headerIndexes hs = _
    rw [headerIndexes_eq, find_required_of_fixed hs hfixed, hc2, List.range_succ_eq_map,
      List.flatMap_cons]
    simp only [slotNames, List.cons_append, List.find?_cons, hzero.1, not_false_eq_true,
      decide_True]
    rfl
  · intro hs2 idxs u k hu hseen hk hres
    obtain ⟨rfl, hreq⟩ := resolved_of_ok hs2 idxs hres
    have hk2 : k < slotCount hs2 := by
      have := lt_slotCount_of_seen hs2 u hu hseen
      omega
    have hin : ∀ name ∈ slotNames k, name ∈ hs2 := fun name hn =>
      hreq name (slotNames_subset_required hs2 k hk2 name hn)
    refine ⟨by rw [length_resolved_users]; exact hk2, hin _ (by simp [slotNames]),
      hin _ (by simp [slotNames]), hin _ (by simp [slotNames])⟩

theorem slot_gap_rejected_witness :
    (readIndexes [.ok slotOneHeader]).1 = .error "missing \"users__0__user_id\" header" ∧
      ∀ (hs2 : List String) (idxs : Indexes) (u k : Nat), u < 10 → slotSeen u hs2 → k ≤ u →
        headerIndexes hs2 = .ok idxs →
          k < idxs.users.length ∧ userId k ∈ hs2 ∧ userPaidShare k ∈ hs2 ∧
            userOwedShare k ∈ hs2 :=
  slot_gap_rejected slotOneHeader [] (by decide) (by decide) (by decide)

/-- C7, as stated, fails: `slotOneHeader` has the seven fixed names and the three names of
slot 1, none of slot 0, and `readIndexes` fails on it. -/
theorem slot_gap_counterexample :
    (∀ name ∈ fixedNames, name ∈ slotOneHeader) ∧
      (∀ name ∈ slotNames 1, name ∈ slotOneHeader) ∧
      (∀ name ∈ slotNames 0, name ∉ slotOneHeader) ∧
      (readIndexes [.ok slotOneHeader]).1 = .error "missing \"users__0__user_id\" header" := by
  decide

/-! ## The first failing row -/

theorem readRows_append_ok [PrintTable] (idxs : Indexes) (pre : List (List String))
    (hpre : ∀ r ∈ pre, ∃ e, entryFromRecord r idxs = .ok e) (rest : Reader) :
    ∀ (row : Nat) (acc : List Entry),
      ∃ acc2, readRows idxs row acc (pre.map .ok ++ rest) =
        readRows idxs (row + pre.length) acc2 rest := by
  induction pre with
  | nil => intro row acc; exact ⟨acc, rfl⟩
  | cons r pre ih =>
    intro row acc
    obtain ⟨e, he⟩ := hpre r (by simp)
    obtain ⟨acc2, h2⟩ := ih (fun r2 hr2 => hpre r2 (List.mem_cons_of_mem _ hr2)) (row + 1)
      (acc ++ [e])
    refine ⟨acc2, ?_⟩
    have hn : row + (r :: pre).length = row + 1 + pre.length := by
      simp only [List.length_cons]; omega
    simp only [List.map_cons, List.cons_append, readRows, he, hn]
    exact h2

theorem read_first_failing [PrintTable] (hs : List String) (idxs : Indexes) (pre : List (List String))
    (row : List String) (post : Reader) (err : String) (hres : headerIndexes hs = .ok idxs)
    (hpre : ∀ r ∈ pre, ∃ e, entryFromRecord r idxs = .ok e)
    (herr : entryFromRecord row idxs = .error err) :
    read (.ok hs :: (pre.map .ok ++ .ok row :: post)) =
      (.error (err ++ ": error on row " ++ toString (pre.length + 1)), post) := by
  obtain ⟨acc2, h2⟩ := readRows_append_ok idxs pre hpre (.ok row :: post) 1 []
  simp only [read, readIndexes, hres, h2, readRows, herr]
  rw [Nat.add_comm 1 pre.length]

theorem isDigit_digitChar (n : Nat) : isDigit (digitChar n) = true := by
  have h : n % 10 < 10 := Nat.mod_lt _ (by omega)
  unfold digitChar
  generalize n % 10 = k at h
  interval_cases k <;> rfl

theorem fmtFloat_shape (x : F64) (h : x.isFinite = true) :
    ∃ whole frac : String, fmtFloat x = whole ++ "." ++ frac ∧ frac.length = 6 ∧
      ∀ c ∈ frac.toList, isDigit c = true := by
  cases x with
  | nan => simp [F64.isFinite] at h
  | inf neg => simp [F64.isFinite] at h
  | fin neg m e =>
    refine ⟨_, _, rfl, rfl, ?_⟩
    intro c hc
    have hc2 : c ∈ [digitChar (roundHalfEven (m * 1000000 * 2 ^ e.toNat) (2 ^ (-e).toNat) / 100000),
        digitChar (roundHalfEven (m * 1000000 * 2 ^ e.toNat) (2 ^ (-e).toNat) / 10000),
        digitChar (roundHalfEven (m * 1000000 * 2 ^ e.toNat) (2 ^ (-e).toNat) / 1000),
        digitChar (roundHalfEven (m * 1000000 * 2 ^ e.toNat) (2 ^ (-e).toNat) / 100),
        digitChar (roundHalfEven (m * 1000000 * 2 ^ e.toNat) (2 ^ (-e).toNat) / 10),
        digitChar (roundHalfEven (m * 1000000 * 2 ^ e.toNat) (2 ^ (-e).toNat))] := hc
    simp only [List.mem_cons, List.mem_singleton, List.not_mem_nil, or_false] at hc2
    rcases hc2 with h | h | h | h | h | h <;> rw [h] <;> exact isDigit_digitChar _

/-- C8, as the code has it. For a resolved header, when the rows before row N decode and
row N, of the header's field count, has a cost and shares that parse, with a float64 paid total
`t` that is not a NaN and is not 100, `read` fails with
`total paid share is not 100 (<t under %f>): error on row N`, whatever the owed total; for a
finite `t` the text of `t` is a whole part, a point and exactly six digits. -/
theorem paid_total_error [PrintTable] (hs : List String) (idxs : Indexes) (pre : List (List String))
    (row : List String) (post : Reader) (cv : F64) (es : List UserEntry)
    (hres : headerIndexes hs = .ok idxs)
    (hpre : ∀ r ∈ pre, ∃ e, entryFromRecord r idxs = .ok e)
    (hlen : row.length = hs.length)
    (hcost : (field row idxs.cost).map parseFloat = some (.ok cv))
    (hshares : List.Forall₂ (decodes row) idxs.users es)
    (hnan : F64.sum (es.map UserEntry.PaidShare) ≠ .nan)
    (hne : ¬ (F64.sum (es.map UserEntry.PaidShare)).is100) :
    (read (.ok hs :: (pre.map .ok ++ .ok row :: post))).1 =
        .error ("total paid share is not 100 (" ++
          fmtFloat (F64.sum (es.map UserEntry.PaidShare)) ++ "): error on row " ++
          toString (pre.length + 1)) ∧
      ((F64.sum (es.map UserEntry.PaidShare)).isFinite = true →
        ∃ whole frac : String,
          fmtFloat (F64.sum (es.map UserEntry.PaidShare)) = whole ++ "." ++ frac ∧
            frac.length = 6 ∧ ∀ c ∈ frac.toList, isDigit c = true) := by
  obtain ⟨g, d, c, cur, cat, desc, det, hg, hd, hc, hcur, hcat, hdesc, hdet⟩ :=
    fixed_fields_of_ok hs row idxs hres hlen
  have hcv : parseFloat c = .ok cv := by simpa [hc] using hcost
  have herr : entryFromRecord row idxs =
      .error ("total paid share is not 100 (" ++
        fmtFloat (F64.sum (es.map UserEntry.PaidShare)) ++ ")") := by
    rw [entryFromRecord_of_decodes row idxs g d cur cat desc det c cv es hg hd hcur hcat hdesc
      hdet hc hcv hshares, notHundred_of_not_is100 _ hnan hne]
    rfl
  refine ⟨?_, fmtFloat_shape _⟩
  rw [read_first_failing hs idxs pre row post _ hres hpre herr]
  simp only [String.append_assoc]
  rfl

/-- C9, as the code has it. For a resolved header, when the rows before row N decode and
row N, of the header's field count, has a cost and shares that parse, with a float64 paid total
equal to 100 and a float64 owed total `t` that is not a NaN and is not 100, `read` fails with
`total owed share is not 100 (<t under %f>): error on row N`; for a finite `t` the text of `t`
is a whole part, a point and exactly six digits. -/
theorem owed_total_error [PrintTable] (hs : List String) (idxs : Indexes) (pre : List (List String))
    (row : List String) (post : Reader) (cv : F64) (es : List UserEntry)
    (hres : headerIndexes hs = .ok idxs)
    (hpre : ∀ r ∈ pre, ∃ e, entryFromRecord r idxs = .ok e)
    (hlen : row.length = hs.length)
    (hcost : (field row idxs.cost).map parseFloat = some (.ok cv))
    (hshares : List.Forall₂ (decodes row) idxs.users es)
    (hpaid : (F64.sum (es.map UserEntry.PaidShare)).is100)
    (hnan : F64.sum (es.map UserEntry.OwedShare) ≠ .nan)
    (hne : ¬ (F64.sum (es.map UserEntry.OwedShare)).is100) :
    (read (.ok hs :: (pre.map .ok ++ .ok row :: post))).1 =
        .error ("total owed share is not 100 (" ++
          fmtFloat (F64.sum (es.map UserEntry.OwedShare)) ++ "): error on row " ++
          toString (pre.length + 1)) ∧
      ((F64.sum (es.map UserEntry.OwedShare)).isFinite = true →
        ∃ whole frac : String,
          fmtFloat (F64.sum (es.map UserEntry.OwedShare)) = whole ++ "." ++ frac ∧
            frac.length = 6 ∧ ∀ c ∈ frac.toList, isDigit c = true) := by
  obtain ⟨g, d, c, cur, cat, desc, det, hg, hd, hc, hcur, hcat, hdesc, hdet⟩ :=
    fixed_fields_of_ok hs row idxs hres hlen
  have hcv : parseFloat c = .ok cv := by simpa [hc] using hcost
  have herr : entryFromRecord row idxs =
      .error ("total owed share is not 100 (" ++
        fmtFloat (F64.sum (es.map UserEntry.OwedShare)) ++ ")") := by
    rw [entryFromRecord_of_decodes row idxs g d cur cat desc det c cv es hg hd hcur hcat hdesc
      hdet hc hcv hshares, notHundred_of_is100 _ hpaid]
    simp only [Outcome.bind, Bool.false_eq_true, if_false]
    rw [notHundred_of_not_is100 _ hnan hne]
    rfl
  refine ⟨?_, fmtFloat_shape _⟩
  rw [read_first_failing hs idxs pre row post _ hres hpre herr]
  simp only [String.append_assoc]
  rfl

theorem paid_total_error_witness :
    (read (.ok twoHeader :: ([].map .ok ++ .ok (twoRow "12.5" "12.5" "50" "75" "50") :: []))).1 =
        .error "total paid share is not 100 (87.500000): error on row 1" ∧
      ((F64.sum (paidShortUsers.map UserEntry.PaidShare)).isFinite = true →
        ∃ whole frac : String,
          fmtFloat (F64.sum (paidShortUsers.map UserEntry.PaidShare)) = whole ++ "." ++ frac ∧
            frac.length = 6 ∧ ∀ c ∈ frac.toList, isDigit c = true) :=
  paid_total_error twoHeader twoIndexes [] (twoRow "12.5" "12.5" "50" "75" "50") []
    (.fin false 7036874417766400 (-49)) paidShortUsers (by decide) (by simp) (by decide)
    (by decide)
    (List.Forall₂.cons (by decide) (List.Forall₂.cons (by decide) List.Forall₂.nil))
    (by decide) (by rw [is100_iff]; decide)

/-- C8, as stated, fails. On a row whose paid shares are `NaN` and 75, which
`strconv.ParseFloat` accepts and whose total is a NaN, `read` stops with a panic instead of
returning an error; on a row whose paid shares are `Inf` and 75 the total is written `+Inf`,
without a decimal point. -/
theorem paid_total_error_counterexample :
    parseFloat "NaN" = .ok .nan ∧
      (read [.ok twoHeader, .ok (twoRow "12.5" "NaN" "50" "75" "50")]).1 = .crash ∧
      parseFloat "Inf" = .ok (.inf false) ∧
      (read [.ok twoHeader, .ok (twoRow "12.5" "Inf" "50" "75" "50")]).1 =
        .error "total paid share is not 100 (+Inf): error on row 1" := by
  decide

theorem owed_total_error_witness :
    (read (.ok twoHeader :: ([goodRow, goodRow, goodRow, goodRow].map .ok ++
        .ok (twoRow "12.5" "25" "50" "75" "31.25") :: []))).1 =
        .error "total owed share is not 100 (81.250000): error on row 5" ∧
      ((F64.sum (owedShortUsers.map UserEntry.OwedShare)).isFinite = true →
        ∃ whole frac : String,
          fmtFloat (F64.sum (owedShortUsers.map UserEntry.OwedShare)) = whole ++ "." ++ frac ∧
            frac.length = 6 ∧ ∀ c ∈ frac.toList, isDigit c = true) :=
  owed_total_error twoHeader twoIndexes [goodRow, goodRow, goodRow, goodRow]
    (twoRow "12.5" "25" "50" "75" "31.25") []
    (.fin false 7036874417766400 (-49)) owedShortUsers (by decide)
    (by
      intro r hr
      have e : r = goodRow := by simpa using hr
      rw [e]
      exact ⟨goodEntry, by decide⟩)
    (by decide) (by decide)
    (List.Forall₂.cons (by decide) (List.Forall₂.cons (by decide) List.Forall₂.nil))
    (by rw [is100_iff]; decide) (by decide) (by rw [is100_iff]; decide)

/-- C9, as stated, fails. On a row whose paid shares total 100 and whose owed shares are `NaN`
and 50, a total that is a NaN, `read` stops with a panic instead of returning an error; on a
row whose owed shares are `Inf` and 50 the total is written `+Inf`, without a decimal point. -/
theorem owed_total_error_counterexample :
    parseFloat "nan" = .ok .nan ∧
      (read [.ok twoHeader, .ok (twoRow "12.5" "25" "nan" "75" "50")]).1 = .crash ∧
      parseFloat "+Inf" = .ok (.inf false) ∧
      (read [.ok twoHeader, .ok (twoRow "12.5" "25" "+Inf" "75" "50")]).1 =
        .error "total owed share is not 100 (+Inf): error on row 1" := by
  decide

/-! ## Parse errors -/

theorem user_fields_of_ok (hs row : List String) (idxs : Indexes)
    (hres : headerIndexes hs = .ok idxs) (hlen : row.length = hs.length) :
    ∀ u ∈ idxs.users, ∃ a b c, field row u.userId = some a ∧ field row u.paidShare = some b ∧
      field row u.owedShare = some c := by
  obtain ⟨rfl, hreq⟩ := resolved_of_ok hs idxs hres
  intro u hu
  simp only [resolved, List.mem_map, List.mem_range] at hu
  obtain ⟨k, hk, rfl⟩ := hu
  have hin : ∀ name ∈ slotNames k, ∃ v, field row (lastPos name 0 0 hs) = some v :=
    fun name hn => field_lastPos_of_mem hs row name (by omega)
      (hreq name (slotNames_subset_required hs k hk name hn))
  obtain ⟨a, ha⟩ := hin (userId k) (by simp [slotNames])
  obtain ⟨b, hb⟩ := hin (userPaidShare k) (by simp [slotNames])
  obtain ⟨c, hc⟩ := hin (userOwedShare k) (by simp [slotNames])
  exact ⟨a, b, c, ha, hb, hc⟩

theorem parseFloat_of_parseError [PrintTable] (s err : String) (h : parseError s = some err) :
    parseFloat s = .error err := by
  unfold parseError at h
  cases hp : parseFloat s with
  | error e => rw [hp] at h; simp at h; rw [h]
  | ok v => rw [hp] at h; simp at h

theorem parseFloat_of_parseError_none [PrintTable] (s : String) (h : parseError s = none) :
    ∃ v, parseFloat s = .ok v := by
  unfold parseError at h
  cases hp : parseFloat s with
  | error e => rw [hp] at h; simp at h
  | ok v => exact ⟨v, rfl⟩

theorem usersLoop_error [PrintTable] (record : List String) (us : List UserIndexes)
    (hin : ∀ u ∈ us, ∃ a b c, field record u.userId = some a ∧
      field record u.paidShare = some b ∧ field record u.owedShare = some c) :
    ∀ (tp tw : F64) (acc : List UserEntry) (err : String),
      (us.flatMap fun u =>
          (field record u.paidShare).toList ++ (field record u.owedShare).toList).findSome?
        parseError = some err →
      usersLoop record us tp tw acc = .error err := by
  induction us with
  | nil => intro tp tw acc err h; simp at h
  | cons u us ih =>
    intro tp tw acc err h
    obtain ⟨a, b, c, ha, hb, hc⟩ := hin u (by simp)
    simp only [List.flatMap_cons, hb, hc, Option.toList_some, List.singleton_append,
      List.cons_append, List.nil_append, List.findSome?_cons] at h
    rw [usersLoop]
    simp only [ha, hb, hc, Outcome.ofOption, Outcome.bind]
    cases hpb : parseError b with
    | some e1 =>
      rw [hpb] at h
      simp only [Option.some.injEq] at h
      rw [parseFloat_of_parseError b e1 hpb, ← h]
      rfl
    | none =>
      rw [hpb] at h
      obtain ⟨vb, hvb⟩ := parseFloat_of_parseError_none b hpb
      rw [hvb]
      simp only [Outcome.ofExcept, Outcome.bind]
      cases hpc : parseError c with
      | some e2 =>
        rw [hpc] at h
        simp only [Option.some.injEq] at h
        rw [parseFloat_of_parseError c e2 hpc, ← h]
      | none =>
        rw [hpc] at h
        obtain ⟨vc, hvc⟩ := parseFloat_of_parseError_none c hpc
        rw [hvc]
        simp only [Outcome.ofExcept, Outcome.bind]
        exact ih (fun u2 hu2 => hin u2 (List.mem_cons_of_mem _ hu2)) _ _ _ err h

theorem entryFromRecord_parse_error [PrintTable] (hs row : List String) (idxs : Indexes) (err : String)
    (hres : headerIndexes hs = .ok idxs) (hlen : row.length = hs.length)
    (hfirst : (numericFields row idxs).findSome? parseError = some err) :
    entryFromRecord row idxs = .error err := by
  obtain ⟨g, d, c, cur, cat, desc, det, hg, hd, hc, hcur, hcat, hdesc, hdet⟩ :=
    fixed_fields_of_ok hs row idxs hres hlen
  have hin := user_fields_of_ok hs row idxs hres hlen
  simp only [numericFields, hc, Option.toList_some, List.singleton_append,
    List.findSome?_cons] at hfirst
  unfold entryFromRecord
  simp only [hg, hd, hcur, hcat, hdesc, hdet, hc, Outcome.ofOption, Outcome.bind]
  cases hpc : parseError c with
  | some e1 =>
    rw [hpc] at hfirst
    simp only [Option.some.injEq] at hfirst
    rw [parseFloat_of_parseError c e1 hpc, ← hfirst]
    rfl
  | none =>
    rw [hpc] at hfirst
    obtain ⟨cv, hcv⟩ := parseFloat_of_parseError_none c hpc
    rw [hcv]
    simp only [Outcome.ofExcept, Outcome.bind]
    rw [usersLoop_error row idxs.users hin _ _ _ err hfirst]

/-- C10. For a resolved header, when the rows before row N decode and in row N, of the
header's field count, the cost or a share of some slot is not a number, `read` fails with the
error of `strconv.ParseFloat` on the first such field (the cost, then the slots in ascending
order, the paid share before the owed share) followed by `: error on row N`; the result is this
error, whatever the share totals of the row, and carries no entry. This holds for every table of
printable code points, so for the text `strconv.Quote` gives of any field. -/
theorem numeric_parse_error [PrintTable] (hs : List String) (idxs : Indexes)
    (pre : List (List String)) (row : List String) (post : Reader) (err : String)
    (hres : headerIndexes hs = .ok idxs)
    (hpre : ∀ r ∈ pre, ∃ e, entryFromRecord r idxs = .ok e)
    (hlen : row.length = hs.length)
    (hfirst : (numericFields row idxs).findSome? parseError = some err) :
    (read (.ok hs :: (pre.map .ok ++ .ok row :: post))).1 =
      .error (err ++ ": error on row " ++ toString (pre.length + 1)) := by
  rw [read_first_failing hs idxs pre row post err hres hpre
    (entryFromRecord_parse_error hs row idxs err hres hlen hfirst)]

theorem numeric_parse_error_witness :
    (read (.ok twoHeader :: ([goodRow, goodRow].map .ok ++
        .ok (twoRow "12.5" "12.5" "not a float" "oops" "50") :: [.ok goodRow]))).1 =
      .error "strconv.ParseFloat: parsing \"not a float\": invalid syntax: error on row 3" :=
  numeric_parse_error twoHeader twoIndexes [goodRow, goodRow]
    (twoRow "12.5" "12.5" "not a float" "oops" "50") [.ok goodRow]
    "strconv.ParseFloat: parsing \"not a float\": invalid syntax" (by decide)
    (by
      intro r hr
      have e : r = goodRow := by simpa using hr
      rw [e]
      exact ⟨goodEntry, by decide⟩)
    (by decide) (by decide)

/-! ## Independence of the order of the columns -/

theorem permute_range (l : List String) : permute (List.range l.length) l = l := by
  apply List.ext_getElem?
  intro k
  simp only [permute, List.getElem?_map]
  by_cases hk : k < l.length
  · rw [List.getElem?_range hk, List.getElem?_eq_getElem hk]
    simp [List.getD_eq_getElem?_getD, List.getElem?_eq_getElem hk]
  · rw [List.getElem?_eq_none (by rw [List.length_range]; omega),
      List.getElem?_eq_none (by omega)]
    rfl

theorem permute_perm (p : List Nat) (l : List String) (hp : p.Perm (List.range l.length)) :
    (permute p l).Perm l := by
  have h := hp.map (fun i => l.getD i "")
  have e : (List.range l.length).map (fun i => l.getD i "") = l := permute_range l
  rw [e] at h
  exact h

theorem zip_permute_perm (p : List Nat) (hs row : List String) (hlen : row.length = hs.length)
    (hp : p.Perm (List.range hs.length)) :
    ((permute p hs).zip (permute p row)).Perm (hs.zip row) := by
  have h := hp.map (fun i => (hs.getD i "", row.getD i ""))
  have e : (List.range hs.length).map (fun i => (hs.getD i "", row.getD i "")) =
      hs.zip row := by
    rw [← List.zip_map']
    have e1 := permute_range hs
    have e2 := permute_range row
    rw [hlen] at e2
    unfold permute at e1 e2
    rw [e1, e2]
  rw [e] at h
  unfold permute
  rw [List.zip_map']
  exact h

theorem field_lastPos_eq_some_iff (hs row : List String) (name v : String) (hnd : hs.Nodup) :
    field row (lastPos name 0 0 hs) = some v ↔ (name, v) ∈ hs.zip row := by
  by_cases hmem : name ∈ hs
  · obtain ⟨j, hj, hpos, hget, _⟩ := lastPos_of_mem name hs 0 0 hmem
    have hf : field row (lastPos name 0 0 hs) = row[j]? := by
      rw [hpos, field]; simp
    rw [hf, List.mem_iff_getElem?]
    constructor
    · intro h
      exact ⟨j, List.getElem?_zip_eq_some.2 ⟨hget, h⟩⟩
    · rintro ⟨i, hi⟩
      obtain ⟨h1, h2⟩ := List.getElem?_zip_eq_some.1 hi
      have hi2 : i < hs.length := by
        by_contra hlt
        rw [List.getElem?_eq_none (by omega)] at h1
        simp at h1
      have e1 : hs[i] = name := by
        rw [List.getElem?_eq_getElem hi2] at h1; exact Option.some.inj h1
      have e2 : hs[j] = name := by
        rw [List.getElem?_eq_getElem hj] at hget; exact Option.some.inj hget
      have e3 : i = j := by
        have a1 := List.indexOf_getElem hnd i hi2
        have a2 := List.indexOf_getElem hnd j hj
        rw [e1] at a1; rw [e2] at a2
        omega
      rw [← e3]; exact h2
  · rw [field_lastPos_of_not_mem hs row name hmem]
    constructor
    · intro h; simp at h
    · intro h
      exact absurd (List.of_mem_zip h).1 hmem

theorem field_lastPos_permute (p : List Nat) (hs row : List String) (name : String)
    (hnd : hs.Nodup) (hlen : row.length = hs.length) (hp : p.Perm (List.range hs.length)) :
    field (permute p row) (lastPos name 0 0 (permute p hs)) =
      field row (lastPos name 0 0 hs) := by
  have hnd2 : (permute p hs).Nodup := (permute_perm p hs hp).nodup_iff.2 hnd
  apply Option.ext
  intro v
  rw [Option.mem_def, Option.mem_def, field_lastPos_eq_some_iff _ _ _ _ hnd2,
    field_lastPos_eq_some_iff _ _ _ _ hnd]
  exact (zip_permute_perm p hs row hlen hp).mem_iff

theorem slotCountUpTo_congr (hs1 hs2 : List String) (h : ∀ name, name ∈ hs1 ↔ name ∈ hs2) :
    ∀ n, slotCountUpTo hs1 n = slotCountUpTo hs2 n := by
  intro n
  induction n with
  | zero => rfl
  | succ n ih =>
    have e : slotSeen n hs1 ↔ slotSeen n hs2 := by
      unfold slotSeen; rw [h, h, h]
    simp only [slotCountUpTo, e, ih]

theorem slotCount_congr (hs1 hs2 : List String) (h : ∀ name, name ∈ hs1 ↔ name ∈ hs2) :
    slotCount hs1 = slotCount hs2 :=
  slotCountUpTo_congr hs1 hs2 h 10

theorem find_required_congr (hs1 hs2 : List String) (h : ∀ name, name ∈ hs1 ↔ name ∈ hs2) :
    (required hs1).find? (fun n => decide (n ∉ hs1)) =
      (required hs2).find? (fun n => decide (n ∉ hs2)) := by
  have e1 : required hs1 = required hs2 := by
    unfold required; rw [slotCount_congr hs1 hs2 h]
  have e2 : (fun n => decide (n ∉ hs1)) = (fun n => decide (n ∉ hs2)) := by
    funext n; simp only [h]
  rw [e1, e2]

theorem usersLoop_congr [PrintTable] (r1 r2 : List String) (us1 us2 : List UserIndexes)
    (h : List.Forall₂ (fun u1 u2 => field r1 u1.userId = field r2 u2.userId ∧
      field r1 u1.paidShare = field r2 u2.paidShare ∧
      field r1 u1.owedShare = field r2 u2.owedShare) us1 us2) :
    ∀ (tp tw : F64) (acc : List UserEntry),
      usersLoop r1 us1 tp tw acc = usersLoop r2 us2 tp tw acc := by
  induction h with
  | nil => intro tp tw acc; rfl
  | @cons u1 u2 us1 us2 hu _ ih =>
    intro tp tw acc
    rw [usersLoop, usersLoop, hu.1, hu.2.1, hu.2.2]
    simp only [ih]

theorem entryFromRecord_congr [PrintTable] (r1 r2 : List String) (i1 i2 : Indexes)
    (hg : field r1 i1.groupId = field r2 i2.groupId) (hd : field r1 i1.date = field r2 i2.date)
    (hc : field r1 i1.cost = field r2 i2.cost)
    (hcur : field r1 i1.currency = field r2 i2.currency)
    (hcat : field r1 i1.categoryId = field r2 i2.categoryId)
    (hdesc : field r1 i1.description = field r2 i2.description)
    (hdet : field r1 i1.details = field r2 i2.details)
    (hus : List.Forall₂ (fun u1 u2 => field r1 u1.userId = field r2 u2.userId ∧
      field r1 u1.paidShare = field r2 u2.paidShare ∧
      field r1 u1.owedShare = field r2 u2.owedShare) i1.users i2.users) :
    entryFromRecord r1 i1 = entryFromRecord r2 i2 := by
  unfold entryFromRecord
  rw [hg, hd, hc, hcur, hcat, hdesc, hdet]
  simp only [usersLoop_congr r1 r2 i1.users i2.users hus]

theorem entryFromRecord_permute [PrintTable] (p : List Nat) (hs row : List String) (hnd : hs.Nodup)
    (hlen : row.length = hs.length) (hp : p.Perm (List.range hs.length)) :
    entryFromRecord (permute p row) (resolved (permute p hs)) =
      entryFromRecord row (resolved hs) := by
  have key := fun name => field_lastPos_permute p hs row name hnd hlen hp
  have hmem : ∀ name, name ∈ permute p hs ↔ name ∈ hs := fun name =>
    (permute_perm p hs hp).mem_iff
  apply entryFromRecord_congr
  · exact key _
  · exact key _
  · exact key _
  · exact key _
  · exact key _
  · exact key _
  · exact key _
  · simp only [resolved, slotCount_congr _ _ hmem]
    rw [List.forall₂_map_left_iff, List.forall₂_map_right_iff, List.forall₂_same]
    intro k _
    exact ⟨key _, key _, key _⟩

theorem readRows_permute [PrintTable] (p : List Nat) (hs : List String) (hnd : hs.Nodup)
    (hp : p.Perm (List.range hs.length)) (rows : List (List String)) :
    (∀ r ∈ rows, r.length = hs.length) → ∀ (n : Nat) (acc : List Entry),
      (readRows (resolved (permute p hs)) n acc ((rows.map (permute p)).map .ok)).1 =
        (readRows (resolved hs) n acc (rows.map .ok)).1 := by
  induction rows with
  | nil => intro _ n acc; rfl
  | cons r rows ih =>
    intro hrows n acc
    have hr : r.length = hs.length := hrows r (by simp)
    simp only [List.map_cons, readRows, entryFromRecord_permute p hs r hnd hr hp]
    cases entryFromRecord r (resolved hs) with
    | ok entry => exact ih (fun r2 hr2 => hrows r2 (List.mem_cons_of_mem _ hr2)) _ _
    | error err => rfl
    | crash => rfl

/-- C5. For a header row with pairwise distinct names, data rows of the header's field count
and a permutation `p` of the column positions, `read` on the header and the rows rearranged by
`p` returns what it returns on the header and the rows as they are: the same entries, or the
same error. -/
theorem column_order_independent [PrintTable] (hs : List String) (rows : List (List String))
    (p : List Nat) (hnd : hs.Nodup) (hrows : ∀ r ∈ rows, r.length = hs.length)
    (hp : p.Perm (List.range hs.length)) :
    (read (.ok (permute p hs) :: (rows.map (permute p)).map .ok)).1 =
      (read (.ok hs :: rows.map .ok)).1 := by
  have hmem : ∀ name, name ∈ permute p hs ↔ name ∈ hs := fun name =>
    (permute_perm p hs hp).mem_iff
  simp only [read, readIndexes]
  rw [headerIndexes_eq, headerIndexes_eq, find_required_congr _ _ hmem]
  cases (required hs).find? (fun n => decide (n ∉ hs)) with
  | some name => rfl
  | none => exact readRows_permute p hs hnd hp rows hrows 1 []

theorem column_order_independent_witness :
    (read (.ok (permute (List.range 13).reverse twoHeader) ::
        ([goodRow, twoRow "12.5" "12.5" "50" "75" "50"].map
          (permute (List.range 13).reverse)).map .ok)).1 =
      (read (.ok twoHeader :: [goodRow, twoRow "12.5" "12.5" "50" "75" "50"].map .ok)).1 :=
  column_order_independent twoHeader [goodRow, twoRow "12.5" "12.5" "50" "75" "50"]
    (List.range 13).reverse (by decide) (by decide) (List.reverse_perm (List.range 13))

/-! ## All the rows -/

theorem readRows_all_ok [PrintTable] (idxs : Indexes) (rows : List (List String)) (es : List Entry)
    (h : List.Forall₂ (fun r e => entryFromRecord r idxs = .ok e) rows es) :
    ∀ (n : Nat) (acc : List Entry),
      readRows idxs n acc (rows.map .ok) = (.ok (acc ++ es), []) := by
  induction h with
  | nil => intro n acc; simp [readRows]
  | @cons r e rows es hr _ ih =>
    intro n acc
    simp only [List.map_cons, readRows, hr, ih, List.append_assoc, List.singleton_append]

theorem forall₂_of_forall_exists [PrintTable] (idxs : Indexes) (rows : List (List String))
    (h : ∀ r ∈ rows, ∃ e, entryFromRecord r idxs = .ok e) :
    ∃ es, List.Forall₂ (fun r e => entryFromRecord r idxs = .ok e) rows es := by
  induction rows with
  | nil => exact ⟨[], List.Forall₂.nil⟩
  | cons r rows ih =>
    obtain ⟨e, he⟩ := h r (by simp)
    obtain ⟨es, hes⟩ := ih (fun r2 hr2 => h r2 (List.mem_cons_of_mem _ hr2))
    exact ⟨e :: es, List.Forall₂.cons he hes⟩

/-- C13. For a resolved header and data rows each of which decodes, `read` succeeds and returns
as many entries as there are rows, the i-th entry being what `entryFromRecord` gives on the i-th
row; with no data row it succeeds with no entry. The row source is left at its end. -/
theorem one_entry_per_row [PrintTable] (hs : List String) (idxs : Indexes) (rows : List (List String))
    (hres : headerIndexes hs = .ok idxs)
    (hrows : ∀ r ∈ rows, ∃ e, entryFromRecord r idxs = .ok e) :
    (∃ es, read (.ok hs :: rows.map .ok) = (.ok es, []) ∧ es.length = rows.length ∧
        ∀ (i : Nat) (h1 : i < rows.length) (h2 : i < es.length),
          entryFromRecord rows[i] idxs = .ok es[i]) ∧
      read [.ok hs] = (.ok [], []) := by
  obtain ⟨es, hes⟩ := forall₂_of_forall_exists idxs rows hrows
  refine ⟨⟨es, ?_, hes.length_eq.symm, ?_⟩, ?_⟩
  · simp only [read, readIndexes, hres, readRows_all_ok idxs rows es hes, List.nil_append]
  · intro i h1 h2
    exact (List.forall₂_iff_get.1 hes).2 i h1 h2
  · simp only [read, readIndexes, hres, readRows]

theorem one_entry_per_row_witness :
    (∃ es, read (.ok twoHeader :: [goodRow, goodRow, goodRow].map .ok) = (.ok es, []) ∧
        es.length = [goodRow, goodRow, goodRow].length ∧
        ∀ (i : Nat) (h1 : i < [goodRow, goodRow, goodRow].length) (h2 : i < es.length),
          entryFromRecord [goodRow, goodRow, goodRow][i] twoIndexes = .ok es[i]) ∧
      read [.ok twoHeader] = (.ok [], []) :=
  one_entry_per_row twoHeader twoIndexes [goodRow, goodRow, goodRow] (by decide)
    (by
      intro r hr
      have e : r = goodRow := by simpa using hr
      rw [e]
      exact ⟨goodEntry, by decide⟩)

/-- C15. When the header row does not resolve, `read` returns the error of `readIndexes`, a
`missing "<name>" header` message for a name the row lacks, with no entry, whatever the data
rows are, and the row source is left with all its data rows unread. -/
theorem header_failure_first [PrintTable] (hs : List String) (err : String) (rest : Reader)
    (hres : headerIndexes hs = .error err) :
    read (.ok hs :: rest) = (.error err, rest) ∧
      ∃ name, name ∉ hs ∧ err = "missing \"" ++ name ++ "\" header" := by
  refine ⟨by simp only [read, readIndexes, hres], ?_⟩
  rw [headerIndexes_eq] at hres
  cases hfind : (required hs).find? (fun n => decide (n ∉ hs)) with
  | none => rw [hfind] at hres; simp at hres
  | some n =>
    rw [hfind] at hres
    simp only [Except.error.injEq] at hres
    exact ⟨n, by simpa using List.find?_some hfind, hres.symm⟩

theorem header_failure_first_witness :
    read (.ok lackingHeader :: [.ok ["short"], .error "record on line 3: wrong number of fields",
        .ok (twoRow "x" "NaN" "1" "2" "3")]) =
        (.error "missing \"users__0__paid_share\" header",
          [.ok ["short"], .error "record on line 3: wrong number of fields",
            .ok (twoRow "x" "NaN" "1" "2" "3")]) ∧
      ∃ name, name ∉ lackingHeader ∧
        "missing \"users__0__paid_share\" header" = "missing \"" ++ name ++ "\" header" :=
  header_failure_first lackingHeader "missing \"users__0__paid_share\" header" _ (by decide)

/-! ## How the loop over the rows ends -/

theorem readRows_reader_error [PrintTable] (idxs : Indexes) (pre : List (List String)) (err : String)
    (post : Reader) (hpre : ∀ r ∈ pre, ∃ e, entryFromRecord r idxs = .ok e) (n : Nat)
    (acc : List Entry) :
    readRows idxs n acc (pre.map .ok ++ .error err :: post) = (.error err, post) := by
  obtain ⟨acc2, h2⟩ := readRows_append_ok idxs pre hpre (.error err :: post) n acc
  rw [h2, readRows]

theorem readRows_crash [PrintTable] (idxs : Indexes) (pre : List (List String)) (row : List String)
    (post : Reader) (hpre : ∀ r ∈ pre, ∃ e, entryFromRecord r idxs = .ok e)
    (hrow : entryFromRecord row idxs = .crash) (n : Nat) (acc : List Entry) :
    readRows idxs n acc (pre.map .ok ++ .ok row :: post) = (.crash, post) := by
  obtain ⟨acc2, h2⟩ := readRows_append_ok idxs pre hpre (.ok row :: post) n acc
  rw [h2, readRows, hrow]

theorem readRows_row_error [PrintTable] (idxs : Indexes) (pre : List (List String)) (row : List String)
    (post : Reader) (err : String) (hpre : ∀ r ∈ pre, ∃ e, entryFromRecord r idxs = .ok e)
    (hrow : entryFromRecord row idxs = .error err) (n : Nat) (acc : List Entry) :
    readRows idxs n acc (pre.map .ok ++ .ok row :: post) =
      (.error (err ++ ": error on row " ++ toString (n + pre.length)), post) := by
  obtain ⟨acc2, h2⟩ := readRows_append_ok idxs pre hpre (.ok row :: post) n acc
  rw [h2, readRows, hrow]

/-- The rows of a reader split at the first row that fails, if any: either every row is a
record that decodes, or the rows before the first failing one decode and that row is an error
of the row source, or a record on which `entryFromRecord` returns an error, or a record on
which it panics. -/
theorem rows_split [PrintTable] (idxs : Indexes) (r : Reader) :
    (∃ rows : List (List String), r = rows.map .ok ∧ ∀ x ∈ rows, ∃ e, entryFromRecord x idxs = .ok e) ∨
      ∃ (pre : List (List String)) (post : Reader),
        (∀ x ∈ pre, ∃ e, entryFromRecord x idxs = .ok e) ∧
        ((∃ err, r = pre.map .ok ++ .error err :: post) ∨
          (∃ row err, r = pre.map .ok ++ .ok row :: post ∧
            entryFromRecord row idxs = .error err) ∨
          ∃ row, r = pre.map .ok ++ .ok row :: post ∧ entryFromRecord row idxs = .crash) := by
  induction r with
  | nil => exact Or.inl ⟨[], rfl, by simp⟩
  | cons x r ih =>
    cases x with
    | error err => exact Or.inr ⟨[], r, by simp, Or.inl ⟨err, rfl⟩⟩
    | ok row =>
      cases hrow : entryFromRecord row idxs with
      | error err => exact Or.inr ⟨[], r, by simp, Or.inr (Or.inl ⟨row, err, rfl, hrow⟩)⟩
      | crash => exact Or.inr ⟨[], r, by simp, Or.inr (Or.inr ⟨row, rfl, hrow⟩)⟩
      | ok e =>
        have hcons : ∀ pre : List (List String),
            (∀ x ∈ pre, ∃ e, entryFromRecord x idxs = .ok e) →
              ∀ x ∈ row :: pre, ∃ e, entryFromRecord x idxs = .ok e := by
          intro pre hp x hx
          rcases List.mem_cons.1 hx with rfl | hx
          · exact ⟨e, hrow⟩
          · exact hp x hx
        rcases ih with ⟨rows, rfl, hrows⟩ | ⟨pre, post, hpre, hcase⟩
        · exact Or.inl ⟨row :: rows, rfl, hcons rows hrows⟩
        · refine Or.inr ⟨row :: pre, post, hcons pre hpre, ?_⟩
          rcases hcase with ⟨err, rfl⟩ | ⟨row2, err, rfl, h2⟩ | ⟨row2, rfl, h2⟩
          · exact Or.inl ⟨err, rfl⟩
          · exact Or.inr (Or.inl ⟨row2, err, rfl, h2⟩)
          · exact Or.inr (Or.inr ⟨row2, rfl, h2⟩)

theorem read_resolved [PrintTable] (hs : List String) (idxs : Indexes) (r1 : Reader)
    (hres : headerIndexes hs = .ok idxs) : read (.ok hs :: r1) = readRows idxs 1 [] r1 := by
  simp only [read, readIndexes, hres]

/-- C11. For a resolved header, when the rows before it decode and the row source reports an
error for a data row (such as the wrong number of fields), `read` returns exactly that error,
without `error on row N`, and no entry. Every other error `read` returns for a data row is the
error of `entryFromRecord` on the first row that does not decode, followed by
`: error on row N` with N the number of that row. -/
theorem reader_error_verbatim [PrintTable] (hs : List String) (idxs : Indexes) (pre : List (List String))
    (err : String) (post : Reader) (hres : headerIndexes hs = .ok idxs)
    (hpre : ∀ r ∈ pre, ∃ e, entryFromRecord r idxs = .ok e) :
    read (.ok hs :: (pre.map .ok ++ .error err :: post)) = (.error err, post) ∧
      ∀ (r1 : Reader) (msg : String) (rest : Reader),
        read (.ok hs :: r1) = (.error msg, rest) →
          (∃ pre2 : List (List String), r1 = pre2.map .ok ++ .error msg :: rest ∧
            ∀ x ∈ pre2, ∃ e, entryFromRecord x idxs = .ok e) ∨
          ∃ (pre2 : List (List String)) (row : List String) (e : String),
            r1 = pre2.map .ok ++ .ok row :: rest ∧
              (∀ x ∈ pre2, ∃ e, entryFromRecord x idxs = .ok e) ∧
              entryFromRecord row idxs = .error e ∧
              msg = e ++ ": error on row " ++ toString (pre2.length + 1) := by
  constructor
  · rw [read_resolved hs idxs _ hres]
    exact readRows_reader_error idxs pre err post hpre 1 []
  · intro r1 msg rest h
    rw [read_resolved hs idxs _ hres] at h
    rcases rows_split idxs r1 with ⟨rows, rfl, hrows⟩ | ⟨pre2, post2, hpre2, hcase⟩
    · obtain ⟨es, hes⟩ := forall₂_of_forall_exists idxs rows hrows
      rw [readRows_all_ok idxs rows es hes] at h
      simp at h
    · rcases hcase with ⟨err2, rfl⟩ | ⟨row, e, rfl, hrow⟩ | ⟨row, rfl, hrow⟩
      · rw [readRows_reader_error idxs pre2 err2 post2 hpre2] at h
        simp only [Prod.mk.injEq, Outcome.error.injEq] at h
        obtain ⟨rfl, rfl⟩ := h
        exact Or.inl ⟨pre2, rfl, hpre2⟩
      · rw [readRows_row_error idxs pre2 row post2 e hpre2 hrow] at h
        simp only [Prod.mk.injEq, Outcome.error.injEq] at h
        obtain ⟨h1, rfl⟩ := h
        refine Or.inr ⟨pre2, row, e, rfl, hpre2, hrow, ?_⟩
        rw [← h1, Nat.add_comm]
      · rw [readRows_crash idxs pre2 row post2 hpre2 hrow] at h
        simp at h

theorem reader_error_verbatim_witness :
    read (.ok twoHeader :: ([goodRow, goodRow].map .ok ++
        .error "record on line 4: wrong number of fields" :: [.ok goodRow])) =
        (.error "record on line 4: wrong number of fields", [.ok goodRow]) ∧
      ∀ (r1 : Reader) (msg : String) (rest : Reader),
        read (.ok twoHeader :: r1) = (.error msg, rest) →
          (∃ pre2 : List (List String), r1 = pre2.map .ok ++ .error msg :: rest ∧
            ∀ x ∈ pre2, ∃ e, entryFromRecord x twoIndexes = .ok e) ∨
          ∃ (pre2 : List (List String)) (row : List String) (e : String),
            r1 = pre2.map .ok ++ .ok row :: rest ∧
              (∀ x ∈ pre2, ∃ e, entryFromRecord x twoIndexes = .ok e) ∧
              entryFromRecord row twoIndexes = .error e ∧
              msg = e ++ ": error on row " ++ toString (pre2.length + 1) :=
  reader_error_verbatim twoHeader twoIndexes [goodRow, goodRow]
    "record on line 4: wrong number of fields" [.ok goodRow] (by decide)
    (by
      intro r hr
      have e : r = goodRow := by simpa using hr
      rw [e]
      exact ⟨goodEntry, by decide⟩)

/-- C12, as the code has it. For a resolved header, when the rows before it decode, the first
failing row decides the result whatever follows it: an error of `entryFromRecord` on that row
is returned followed by `: error on row N`, N being the number of the row, and an error of the
row source on that row is returned as it is, without a row number. `read` returns entries only
when every row of the input decodes, and whenever it returns an error it returns no entry. -/
theorem first_failure_wins [PrintTable] (hs : List String) (idxs : Indexes) (pre : List (List String))
    (post : Reader) (hres : headerIndexes hs = .ok idxs)
    (hpre : ∀ r ∈ pre, ∃ e, entryFromRecord r idxs = .ok e) :
    (∀ (row : List String) (e : String), entryFromRecord row idxs = .error e →
        read (.ok hs :: (pre.map .ok ++ .ok row :: post)) =
          (.error (e ++ ": error on row " ++ toString (pre.length + 1)), post)) ∧
      (∀ err : String,
        read (.ok hs :: (pre.map .ok ++ .error err :: post)) = (.error err, post)) ∧
      (∀ (r1 : Reader) (entries : List Entry) (rest : Reader),
        read (.ok hs :: r1) = (.ok entries, rest) →
          rest = [] ∧ ∃ rows : List (List String), r1 = rows.map .ok ∧
            List.Forall₂ (fun r e => entryFromRecord r idxs = .ok e) rows entries) ∧
      ∀ (r : Reader) (entries : List Entry) (err : String),
        returned (read r).1 = some (entries, some err) → entries = [] := by
  refine ⟨?_, ?_, ?_, ?_⟩
  · intro row e hrow
    exact read_first_failing hs idxs pre row post e hres hpre hrow
  · intro err
    rw [read_resolved hs idxs _ hres]
    exact readRows_reader_error idxs pre err post hpre 1 []
  · intro r1 entries rest h
    rw [read_resolved hs idxs _ hres] at h
    rcases rows_split idxs r1 with ⟨rows, rfl, hrows⟩ | ⟨pre2, post2, hpre2, hcase⟩
    · obtain ⟨es, hes⟩ := forall₂_of_forall_exists idxs rows hrows
      rw [readRows_all_ok idxs rows es hes] at h
      simp only [List.nil_append, Prod.mk.injEq, Outcome.ok.injEq] at h
      obtain ⟨rfl, rfl⟩ := h
      exact ⟨rfl, rows, rfl, hes⟩
    · rcases hcase with ⟨err2, rfl⟩ | ⟨row, e, rfl, hrow⟩ | ⟨row, rfl, hrow⟩
      · rw [readRows_reader_error idxs pre2 err2 post2 hpre2] at h; simp at h
      · rw [readRows_row_error idxs pre2 row post2 e hpre2 hrow] at h; simp at h
      · rw [readRows_crash idxs pre2 row post2 hpre2 hrow] at h; simp at h
  · intro r entries err h
    cases hr : (read r).1 with
    | ok es => rw [hr] at h; simp [returned] at h
    | error e2 =>
      rw [hr] at h
      simp only [returned, Option.some.injEq, Prod.mk.injEq] at h
      exact h.1.symm
    | crash => rw [hr] at h; simp [returned] at h

theorem first_failure_wins_witness :
    (∀ (row : List String) (e : String), entryFromRecord row twoIndexes = .error e →
        read (.ok twoHeader :: ([goodRow].map .ok ++ .ok row :: [.ok goodRow])) =
          (.error (e ++ ": error on row " ++ toString ([goodRow].length + 1)), [.ok goodRow])) ∧
      (∀ err : String,
        read (.ok twoHeader :: ([goodRow].map .ok ++ .error err :: [.ok goodRow])) =
          (.error err, [.ok goodRow])) ∧
      (∀ (r1 : Reader) (entries : List Entry) (rest : Reader),
        read (.ok twoHeader :: r1) = (.ok entries, rest) →
          rest = [] ∧ ∃ rows : List (List String), r1 = rows.map .ok ∧
            List.Forall₂ (fun r e => entryFromRecord r twoIndexes = .ok e) rows entries) ∧
      ∀ (r : Reader) (entries : List Entry) (err : String),
        returned (read r).1 = some (entries, some err) → entries = [] :=
  first_failure_wins twoHeader twoIndexes [goodRow] [.ok goodRow] (by decide)
    (by
      intro r hr
      have e : r = goodRow := by simpa using hr
      rw [e]
      exact ⟨goodEntry, by decide⟩)

/-- C12, as stated, fails. When the lowest-numbered failing row is one on which the row source
reports an error, the error returned carries no row number; and on a row whose paid shares are
`NaN` and 75 `read` panics, returning neither a result nor an error. -/
theorem first_failure_counterexample :
    read [.ok twoHeader, .ok goodRow, .error "record on line 3: wrong number of fields",
        .ok (twoRow "12.5" "1" "50" "75" "50")] =
        (.error "record on line 3: wrong number of fields",
          [.ok (twoRow "12.5" "1" "50" "75" "50")]) ∧
      returned (read [.ok twoHeader, .ok (twoRow "12.5" "NaN" "50" "75" "50")]).1 = none := by
  decide

/-! ## The order of the validation -/

theorem filter_lt_range (c : Nat) (hc : c ≤ 10) :
    (List.range 10).filter (fun k => decide (k < c)) = List.range c := by
  interval_cases c <;> rfl

theorem required_eq_ownSlots (hs : List String)
    (hgap : ∀ u, u < slotCount hs → slotSeen u hs) : required hs = requiredOwnSlots hs := by
  unfold required requiredOwnSlots
  have e : (List.range 10).filter (fun u => decide (slotSeen u hs)) =
      (List.range 10).filter (fun k => decide (k < slotCount hs)) := by
    apply List.filter_congr
    intro k hk
    have hk10 : k < 10 := List.mem_range.1 hk
    by_cases hseen : slotSeen k hs
    · simp [hseen, lt_slotCount_of_seen hs k hk10 hseen]
    · have : ¬ k < slotCount hs := fun h => hseen (hgap k h)
      simp [hseen, this]
  rw [e, filter_lt_range _ (slotCount_le_ten hs)]

theorem find_of_split (hs before after : List String) (name : String)
    (hsplit : required hs = before ++ name :: after) (hbefore : ∀ n ∈ before, n ∈ hs)
    (hname : name ∉ hs) :
    (required hs).find? (fun n => decide (n ∉ hs)) = some name := by
  have h1 : before.find? (fun n => decide (n ∉ hs)) = none := by
    rw [List.find?_eq_none]
    intro n hn
    simpa using hbefore n hn
  rw [hsplit, List.find?_append, h1, Option.none_or, List.find?_cons]
  simp [hname]

/-- C14, as the code has it. The names `readIndexes` requires of a header row `hs` are, in this
order, `group_id`, `date`, `cost`, `currency`, `category_id`, `description`, `details`, then for
each slot from 0
up to the highest slot below ten of which `hs` holds a name, `users__k__user_id`,
`users__k__paid_share`, `users__k__owed_share`. When `hs` lacks some of them, however many,
`readIndexes` fails naming the first one it lacks in that order. When no slot is skipped, these
are the seven fixed names and the names of the slots of which `hs` holds a name. -/
theorem validation_order (hs : List String) (rest : Reader) (before after : List String)
    (name : String) (hsplit : required hs = before ++ name :: after)
    (hbefore : ∀ n ∈ before, n ∈ hs) (hname : name ∉ hs) :
    (readIndexes (.ok hs :: rest)).1 = .error ("missing \"" ++ name ++ "\" header") ∧
      required hs =
        [groupId, date, cost, currency, categoryId, description, details] ++
          (List.range (slotCount hs)).flatMap
            (fun k => [userId k, userPaidShare k, userOwedShare k]) ∧
      ((∀ u, u < slotCount hs → slotSeen u hs) → required hs = requiredOwnSlots hs) := by
  refine ⟨?_, rfl, required_eq_ownSlots hs⟩
  show headerIndexes hs = _
  rw [headerIndexes_eq, find_of_split hs before after name hsplit hbefore hname]
  rfl

theorem validation_order_witness :
    (readIndexes [.ok sparseHeader]).1 = .error "missing \"users__0__paid_share\" header" ∧
      required sparseHeader =
        [groupId, date, cost, currency, categoryId, description, details] ++
          (List.range (slotCount sparseHeader)).flatMap
            (fun k => [userId k, userPaidShare k, userOwedShare k]) ∧
      ((∀ u, u < slotCount sparseHeader → slotSeen u sparseHeader) →
        required sparseHeader = requiredOwnSlots sparseHeader) :=
  validation_order sparseHeader []
    ["group_id", "date", "cost", "currency", "category_id", "description", "details",
      "users__0__user_id"]
    ["users__0__owed_share", "users__1__user_id", "users__1__paid_share",
      "users__1__owed_share"]
    "users__0__paid_share" (by decide) (by decide) (by decide)

/-- C14, as stated, fails: `loneIdHeader` has the seven fixed names and, of the slots of which it
holds a name, lacks `users__1__paid_share` and `users__1__owed_share`, the first in the stated
order being `users__1__paid_share`, and `readIndexes` names `users__0__user_id`. -/
theorem validation_order_counterexample :
    (requiredOwnSlots loneIdHeader).filter (fun n => decide (n ∉ loneIdHeader)) =
        ["users__1__paid_share", "users__1__owed_share"] ∧
      (readIndexes [.ok loneIdHeader]).1 = .error "missing \"users__0__user_id\" header" := by
  decide

/-! ## Rows without participants and totals that are not numbers -/

theorem zero_not_is100 : ¬ (F64.sum []).is100 := by
  rw [is100_iff]; decide

theorem entryFromRecord_no_users [PrintTable] (row : List String) (idxs : Indexes) (e : Entry)
    (husers : idxs.users = []) : entryFromRecord row idxs ≠ .ok e := by
  intro h
  obtain ⟨_, _, _, _, _, _, _, hus, hp, _⟩ := entryFromRecord_ok_inv row idxs e h
  rw [husers] at hus
  have he : e.Users = [] := List.forall₂_nil_left_iff.1 hus
  rw [he] at hp
  exact zero_not_is100 hp

/-- C20. When the header row resolves with no user slot, every data row of the header's field
count whose cost is a number fails in `entryFromRecord` with
`total paid share is not 100 (0.000000)`, and `read` returns entries only for an input without
data rows, the entries then being none. -/
theorem no_participants_no_row [PrintTable] (hs : List String) (idxs : Indexes)
    (hres : headerIndexes hs = .ok idxs) (husers : idxs.users = []) :
    (∀ (row : List String) (cv : F64), row.length = hs.length →
        (field row idxs.cost).map parseFloat = some (.ok cv) →
          entryFromRecord row idxs = .error "total paid share is not 100 (0.000000)") ∧
      (∀ (row : List String) (cv : F64) (post : Reader), row.length = hs.length →
        (field row idxs.cost).map parseFloat = some (.ok cv) →
          read (.ok hs :: .ok row :: post) =
            (.error "total paid share is not 100 (0.000000): error on row 1", post)) ∧
      ∀ (r1 : Reader) (entries : List Entry) (rest : Reader),
        read (.ok hs :: r1) = (.ok entries, rest) → r1 = [] ∧ entries = [] := by
  have hrow : ∀ (row : List String) (cv : F64), row.length = hs.length →
      (field row idxs.cost).map parseFloat = some (.ok cv) →
        entryFromRecord row idxs = .error "total paid share is not 100 (0.000000)" := by
    intro row cv hlen hcost
    obtain ⟨g, d, c, cur, cat, desc, det, hg, hd, hc, hcur, hcat, hdesc, hdet⟩ :=
      fixed_fields_of_ok hs row idxs hres hlen
    have hcv : parseFloat c = .ok cv := by simpa [hc] using hcost
    have hes : List.Forall₂ (decodes row) idxs.users [] := by
      rw [husers]; exact List.Forall₂.nil
    have hz : notHundred (F64.sum (List.map UserEntry.PaidShare [])) = .ok true := by decide
    have hf : "total paid share is not 100 (" ++
        fmtFloat (F64.sum (List.map UserEntry.PaidShare [])) ++ ")" =
          "total paid share is not 100 (0.000000)" := by decide
    rw [entryFromRecord_of_decodes row idxs g d cur cat desc det c cv [] hg hd hcur hcat hdesc
      hdet hc hcv hes, hz]
    simp only [Outcome.bind, if_true, hf]
  refine ⟨hrow, ?_, ?_⟩
  · intro row cv post hlen hcost
    have h := read_first_failing hs idxs [] row post _ hres (by simp) (hrow row cv hlen hcost)
    have hm : "total paid share is not 100 (0.000000)" ++ ": error on row " ++
        toString (([] : List (List String)).length + 1) =
          "total paid share is not 100 (0.000000): error on row 1" := by decide
    simp only [List.map_nil, List.nil_append, hm] at h
    exact h
  · intro r1 entries rest h
    rw [read_resolved hs idxs _ hres] at h
    cases r1 with
    | nil =>
      simp only [readRows, Prod.mk.injEq, Outcome.ok.injEq] at h
      exact ⟨rfl, h.1.symm⟩
    | cons x r2 =>
      cases x with
      | error err => simp [readRows] at h
      | ok row =>
        rw [readRows] at h
        cases hdec : entryFromRecord row idxs with
        | ok e => exact absurd hdec (entryFromRecord_no_users row idxs e husers)
        | error err => rw [hdec] at h; simp at h
        | crash => rw [hdec] at h; simp at h

theorem no_participants_no_row_witness :
    (∀ (row : List String) (cv : F64), row.length = fixedNames.length →
        (field row fixedOnlyIndexes.cost).map parseFloat = some (.ok cv) →
          entryFromRecord row fixedOnlyIndexes =
            .error "total paid share is not 100 (0.000000)") ∧
      (∀ (row : List String) (cv : F64) (post : Reader), row.length = fixedNames.length →
        (field row fixedOnlyIndexes.cost).map parseFloat = some (.ok cv) →
          read (.ok fixedNames :: .ok row :: post) =
            (.error "total paid share is not 100 (0.000000): error on row 1", post)) ∧
      ∀ (r1 : Reader) (entries : List Entry) (rest : Reader),
        read (.ok fixedNames :: r1) = (.ok entries, rest) → r1 = [] ∧ entries = [] :=
  no_participants_no_row fixedNames fixedOnlyIndexes (by decide) (by decide)

/-- C19, at the failing inputs. `strconv.ParseFloat` accepts `NaN`, `Inf` and `-Inf`; on rows
of the header's field count whose paid shares are `NaN` and 75, or `Inf` and `-Inf`, or whose
owed shares are `NaN` and 50, the total is a NaN and `entryFromRecord` panics in
`big.NewFloat` instead of returning an entry or an error. -/
theorem decode_nan_panics :
    headerIndexes twoHeader = .ok twoIndexes ∧
      (twoRow "12.5" "NaN" "50" "75" "50").length = twoHeader.length ∧
      parseFloat "NaN" = .ok .nan ∧ parseFloat "Inf" = .ok (.inf false) ∧
      parseFloat "-Inf" = .ok (.inf true) ∧
      entryFromRecord (twoRow "12.5" "NaN" "50" "75" "50") twoIndexes = .crash ∧
      entryFromRecord (twoRow "12.5" "Inf" "50" "-Inf" "50") twoIndexes = .crash ∧
      entryFromRecord (twoRow "12.5" "25" "NaN" "75" "50") twoIndexes = .crash := by
  decide

/-! ## The recorded positions -/

theorem userPositionsFrom_slots (hs : List String) : ∀ (n i : Nat),
    userPositionsFrom i ((List.range' i n).map (slotOf hs)) =
      ((List.range' i n).flatMap slotNames).map (fun name => (name, lastPos name 0 0 hs)) := by
  intro n
  induction n with
  | zero => intro i; rfl
  | succ n ih =>
    intro i
    simp only [List.range'_succ, List.map_cons, userPositionsFrom, List.flatMap_cons, slotNames,
      List.cons_append, List.nil_append, slotOf, ih]

theorem namedPositions_resolved (hs : List String) :
    namedPositions (resolved hs) =
      (required hs).map (fun name => (name, lastPos name 0 0 hs)) := by
  simp only [namedPositions, resolved, required, fixedNames, List.map_append, List.map_cons,
    List.map_nil, List.range_eq_range', userPositionsFrom_slots]

theorem namedPositions_spec (hs : List String) (idxs : Indexes)
    (hres : headerIndexes hs = .ok idxs) :
    ∀ np ∈ namedPositions idxs, np.1 ∈ hs ∧ np.2 = lastPos np.1 0 0 hs := by
  obtain ⟨rfl, hreq⟩ := resolved_of_ok hs idxs hres
  intro np hnp
  rw [namedPositions_resolved, List.mem_map] at hnp
  obtain ⟨name, hname, rfl⟩ := hnp
  exact ⟨hreq name hname, rfl⟩

theorem decodes_or_error [PrintTable] (row : List String) (us : List UserIndexes)
    (hin : ∀ u ∈ us, ∃ a b c, field row u.userId = some a ∧ field row u.paidShare = some b ∧
      field row u.owedShare = some c) :
    (∃ es, List.Forall₂ (decodes row) us es) ∨
      ∃ err, (us.flatMap fun u =>
        (field row u.paidShare).toList ++ (field row u.owedShare).toList).findSome?
          parseError = some err := by
  induction us with
  | nil => exact Or.inl ⟨[], List.Forall₂.nil⟩
  | cons u us ih =>
    obtain ⟨a, b, c, ha, hb, hc⟩ := hin u (by simp)
    simp only [List.flatMap_cons, hb, hc, Option.toList_some, List.singleton_append,
      List.cons_append, List.nil_append, List.findSome?_cons]
    cases hpb : parseError b with
    | some e1 => exact Or.inr ⟨e1, rfl⟩
    | none =>
      cases hpc : parseError c with
      | some e2 => exact Or.inr ⟨e2, rfl⟩
      | none =>
        obtain ⟨vb, hvb⟩ := parseFloat_of_parseError_none b hpb
        obtain ⟨vc, hvc⟩ := parseFloat_of_parseError_none c hpc
        rcases ih (fun u2 hu2 => hin u2 (List.mem_cons_of_mem _ hu2)) with ⟨es, hes⟩ | ⟨err, h⟩
        · refine Or.inl ⟨⟨a, vb, vc⟩ :: es, List.Forall₂.cons ⟨ha, ?_, ?_⟩ hes⟩
          · simp [hb, hvb]
          · simp [hc, hvc]
        · exact Or.inr ⟨err, h⟩

theorem entryFromRecord_crash_inv [PrintTable] (hs row : List String) (idxs : Indexes)
    (hres : headerIndexes hs = .ok idxs) (hlen : row.length = hs.length)
    (h : entryFromRecord row idxs = .crash) :
    ∃ es, List.Forall₂ (decodes row) idxs.users es ∧
      (F64.sum (es.map UserEntry.PaidShare) = .nan ∨
        F64.sum (es.map UserEntry.OwedShare) = .nan) := by
  obtain ⟨g, d, c, cur, cat, desc, det, hg, hd, hc, hcur, hcat, hdesc, hdet⟩ :=
    fixed_fields_of_ok hs row idxs hres hlen
  have hin := user_fields_of_ok hs row idxs hres hlen
  cases hpc : parseError c with
  | some e1 =>
    have := entryFromRecord_parse_error hs row idxs e1 hres hlen
      (by simp [numericFields, hc, hpc])
    rw [this] at h; simp at h
  | none =>
    obtain ⟨cv, hcv⟩ := parseFloat_of_parseError_none c hpc
    rcases decodes_or_error row idxs.users hin with ⟨es, hes⟩ | ⟨err, herr⟩
    · refine ⟨es, hes, ?_⟩
      rw [entryFromRecord_of_decodes row idxs g d cur cat desc det c cv es hg hd hcur hcat hdesc
        hdet hc hcv hes] at h
      by_cases hp : F64.sum (es.map UserEntry.PaidShare) = .nan
      · exact Or.inl hp
      · by_cases ho : F64.sum (es.map UserEntry.OwedShare) = .nan
        · exact Or.inr ho
        · rw [notHundred_of_ne_nan _ hp, notHundred_of_ne_nan _ ho] at h
          simp only [Outcome.bind] at h
          split_ifs at h
    · have := entryFromRecord_parse_error hs row idxs err hres hlen
        (by simp [numericFields, hc, hpc, herr])
      rw [this] at h; simp at h

/-- C18. When `readIndexes` succeeds on a header row of length n, every recorded position, of
the seven fixed fields and of the three fields of each element of `users`, lies between 1 and n
and the header at that position minus one is the name the position is recorded for. Hence on a
row of n fields every indexing `record[idx-1]` of `entryFromRecord` is within bounds, and
`entryFromRecord` panics on such a row only when all the fields parse and a share total is a
NaN. -/
theorem positions_in_bounds [PrintTable] (hs : List String) (idxs : Indexes)
    (hres : headerIndexes hs = .ok idxs) :
    (∀ np ∈ namedPositions idxs,
        1 ≤ np.2 ∧ np.2 ≤ hs.length ∧ hs[np.2 - 1]? = some np.1) ∧
      ∀ row : List String, row.length = hs.length →
        (∀ np ∈ namedPositions idxs, ∃ v, field row np.2 = some v) ∧
          (entryFromRecord row idxs = .crash →
            ∃ es, List.Forall₂ (decodes row) idxs.users es ∧
              (F64.sum (es.map UserEntry.PaidShare) = .nan ∨
                F64.sum (es.map UserEntry.OwedShare) = .nan)) := by
  have hspec := namedPositions_spec hs idxs hres
  refine ⟨?_, ?_⟩
  · intro np hnp
    obtain ⟨hmem, hpos⟩ := hspec np hnp
    rw [hpos]
    exact get_lastPos_of_mem hs np.1 hmem
  · intro row hlen
    refine ⟨?_, entryFromRecord_crash_inv hs row idxs hres hlen⟩
    intro np hnp
    obtain ⟨hmem, hpos⟩ := hspec np hnp
    rw [hpos]
    exact field_lastPos_of_mem hs row np.1 (by omega) hmem

theorem positions_in_bounds_witness :
    (∀ np ∈ namedPositions sampleIndexes,
        1 ≤ np.2 ∧ np.2 ≤ sampleHeader.length ∧ sampleHeader[np.2 - 1]? = some np.1) ∧
      ∀ row : List String, row.length = sampleHeader.length →
        (∀ np ∈ namedPositions sampleIndexes, ∃ v, field row np.2 = some v) ∧
          (entryFromRecord row sampleIndexes = .crash →
            ∃ es, List.Forall₂ (decodes row) sampleIndexes.users es ∧
              (F64.sum (es.map UserEntry.PaidShare) = .nan ∨
                F64.sum (es.map UserEntry.OwedShare) = .nan)) :=
  positions_in_bounds sampleHeader sampleIndexes (by decide)

/-! ## Header names that occur more than once -/

theorem isLastColumn_lastPos (hs : List String) (name : String) (hmem : name ∈ hs) :
    1 ≤ lastPos name 0 0 hs ∧ isLastColumn hs name (lastPos name 0 0 hs - 1) := by
  obtain ⟨j, hj, hpos, hget, hlast⟩ := lastPos_of_mem name hs 0 0 hmem
  rw [hpos]
  refine ⟨by omega, ?_⟩
  have e : 0 + j + 1 - 1 = j := by omega
  rw [e]
  exact ⟨hget, hlast⟩

theorem lastPos_of_isLastColumn (hs : List String) (name : String) (q : Nat)
    (h : isLastColumn hs name q) : lastPos name 0 0 hs = q + 1 := by
  have hmem : name ∈ hs := List.getElem?_mem h.1
  obtain ⟨j, hj, hpos, hget, hlast⟩ := lastPos_of_mem name hs 0 0 hmem
  have hqj : q = j := by
    rcases Nat.lt_trichotomy q j with hlt | heq | hgt
    · exact absurd hget (h.2 j hlt)
    · exact heq
    · exact absurd h.1 (hlast q hgt)
  rw [hpos, hqj]; omega

theorem field_of_isLastColumn (hs row : List String) (name : String) (q : Nat)
    (h : isLastColumn hs name q) : field row (lastPos name 0 0 hs) = row[q]? := by
  rw [lastPos_of_isLastColumn hs name q h, field]
  simp

theorem headerIndexes_dedup (hs : List String) : headerIndexes hs.dedup =
    match headerIndexes hs with
    | .error err => .error err
    | .ok _ => .ok (resolved hs.dedup) := by
  have hmem : ∀ name, name ∈ hs.dedup ↔ name ∈ hs := fun name => List.mem_dedup
  rw [headerIndexes_eq, headerIndexes_eq, find_required_congr _ _ hmem]
  cases (required hs).find? (fun n => decide (n ∉ hs)) <;> rfl

/-- C16. When a header row resolves, the position recorded for each recognized name, fixed or
of a slot, is that of the last column bearing the name, so that an entry decoded from a row
takes each field from the rightmost column of that name. A header row fails to resolve exactly
when the row without its repeated names fails, and with the same message: repeated names are
never the cause of an error. -/
theorem duplicates_last_wins [PrintTable] (hs : List String) (idxs : Indexes)
    (hres : headerIndexes hs = .ok idxs) :
    (∀ np ∈ namedPositions idxs, 1 ≤ np.2 ∧ isLastColumn hs np.1 (np.2 - 1)) ∧
      (∀ (row : List String) (e : Entry), entryFromRecord row idxs = .ok e → ∀ q : Nat,
        (isLastColumn hs groupId q → row[q]? = some e.GroupId) ∧
          (isLastColumn hs date q → row[q]? = some e.Date) ∧
          (isLastColumn hs currency q → row[q]? = some e.Currency) ∧
          (isLastColumn hs categoryId q → row[q]? = some e.CategoryId) ∧
          (isLastColumn hs description q → row[q]? = some e.Description) ∧
          (isLastColumn hs details q → row[q]? = some e.Details) ∧
          (isLastColumn hs cost q → (row[q]?).map parseFloat = some (.ok e.Cost)) ∧
          ∀ (k : Nat) (hk : k < e.Users.length),
            (isLastColumn hs (userId k) q → row[q]? = some e.Users[k].UserId) ∧
              (isLastColumn hs (userPaidShare k) q →
                (row[q]?).map parseFloat = some (.ok e.Users[k].PaidShare)) ∧
              (isLastColumn hs (userOwedShare k) q →
                (row[q]?).map parseFloat = some (.ok e.Users[k].OwedShare))) ∧
      ∀ (hs2 : List String) (err : String),
        headerIndexes hs2 = .error err ↔ headerIndexes hs2.dedup = .error err := by
  refine ⟨?_, ?_, ?_⟩
  · intro np hnp
    obtain ⟨hmem, hpos⟩ := namedPositions_spec hs idxs hres np hnp
    rw [hpos]
    exact isLastColumn_lastPos hs np.1 hmem
  · obtain ⟨rfl, hreq⟩ := resolved_of_ok hs idxs hres
    intro row e hdec q
    obtain ⟨h1, h2, h3, h4, h5, h6, h7, hus, _, _⟩ := entryFromRecord_ok_inv row _ e hdec
    rw [List.forall₂_iff_get] at hus
    refine ⟨?_, ?_, ?_, ?_, ?_, ?_, ?_, ?_⟩
    · intro hq; rw [← field_of_isLastColumn hs row _ q hq]; exact h1
    · intro hq; rw [← field_of_isLastColumn hs row _ q hq]; exact h2
    · intro hq; rw [← field_of_isLastColumn hs row _ q hq]; exact h3
    · intro hq; rw [← field_of_isLastColumn hs row _ q hq]; exact h4
    · intro hq; rw [← field_of_isLastColumn hs row _ q hq]; exact h5
    · intro hq; rw [← field_of_isLastColumn hs row _ q hq]; exact h6
    · intro hq; rw [← field_of_isLastColumn hs row _ q hq]; exact h7
    · intro k hk
      have hk1 : k < (resolved hs).users.length := by rw [hus.1]; exact hk
      have hd := hus.2 k hk1 hk
      simp only [List.get_eq_getElem, getElem_resolved_users hs k hk1, decodes, slotOf] at hd
      refine ⟨?_, ?_, ?_⟩
      · intro hq; rw [← field_of_isLastColumn hs row _ q hq]; exact hd.1
      · intro hq; rw [← field_of_isLastColumn hs row _ q hq]; exact hd.2.1
      · intro hq; rw [← field_of_isLastColumn hs row _ q hq]; exact hd.2.2
  · intro hs2 err
    rw [headerIndexes_dedup]
    cases headerIndexes hs2 with
    | error e2 => simp
    | ok i2 => simp

theorem duplicates_last_wins_witness :
    (∀ np ∈ namedPositions duplicateIndexes,
        1 ≤ np.2 ∧ isLastColumn duplicateHeader np.1 (np.2 - 1)) ∧
      (∀ (row : List String) (e : Entry), entryFromRecord row duplicateIndexes = .ok e →
        ∀ q : Nat,
        (isLastColumn duplicateHeader groupId q → row[q]? = some e.GroupId) ∧
          (isLastColumn duplicateHeader date q → row[q]? = some e.Date) ∧
          (isLastColumn duplicateHeader currency q → row[q]? = some e.Currency) ∧
          (isLastColumn duplicateHeader categoryId q → row[q]? = some e.CategoryId) ∧
          (isLastColumn duplicateHeader description q → row[q]? = some e.Description) ∧
          (isLastColumn duplicateHeader details q → row[q]? = some e.Details) ∧
          (isLastColumn duplicateHeader cost q →
            (row[q]?).map parseFloat = some (.ok e.Cost)) ∧
          ∀ (k : Nat) (hk : k < e.Users.length),
            (isLastColumn duplicateHeader (userId k) q → row[q]? = some e.Users[k].UserId) ∧
              (isLastColumn duplicateHeader (userPaidShare k) q →
                (row[q]?).map parseFloat = some (.ok e.Users[k].PaidShare)) ∧
              (isLastColumn duplicateHeader (userOwedShare k) q →
                (row[q]?).map parseFloat = some (.ok e.Users[k].OwedShare))) ∧
      ∀ (hs2 : List String) (err : String),
        headerIndexes hs2 = .error err ↔ headerIndexes hs2.dedup = .error err :=
  duplicates_last_wins duplicateHeader duplicateIndexes (by decide)

/-! ## Names of slots from the tenth on -/

theorem digitChar_ne_underscore (n : Nat) : Nat.digitChar (n % 10) ≠ '_' := by
  have h : n % 10 < 10 := Nat.mod_lt _ (by omega)
  generalize n % 10 = k at h
  interval_cases k <;> decide

theorem toDigitsCore_ne_underscore : ∀ (fuel n : Nat) (ds : List Char),
    (∀ c ∈ ds, c ≠ '_') → ∀ c ∈ Nat.toDigitsCore 10 fuel n ds, c ≠ '_' := by
  intro fuel
  induction fuel with
  | zero => intro n ds hds c hc; exact hds c hc
  | succ fuel ih =>
    intro n ds hds c hc
    have hcons : ∀ c ∈ Nat.digitChar (n % 10) :: ds, c ≠ '_' := by
      intro c2 hc2
      rcases List.mem_cons.1 hc2 with rfl | h2
      · exact digitChar_ne_underscore n
      · exact hds c2 h2
    simp only [Nat.toDigitsCore] at hc
    split_ifs at hc
    · exact hcons c hc
    · exact ih _ _ hcons c hc

theorem toDigitsCore_length_pos : ∀ (fuel n : Nat), 0 < fuel →
    0 < (Nat.toDigitsCore 10 fuel n []).length := by
  intro fuel n hf
  obtain ⟨f, rfl⟩ : ∃ f, fuel = f + 1 := ⟨fuel - 1, by omega⟩
  simp only [Nat.toDigitsCore]
  split_ifs
  · simp
  · rw [Nat.toDigitsCore_lens_eq]; omega

theorem toDigits_two_le (u : Nat) (hu : 10 ≤ u) : 2 ≤ (Nat.toDigits 10 u).length := by
  unfold Nat.toDigits
  simp only [Nat.toDigitsCore]
  have h0 : u / 10 ≠ 0 := by omega
  simp only [h0, if_false]
  rw [Nat.toDigitsCore_lens_eq]
  have := toDigitsCore_length_pos u (u / 10) (by omega)
  omega

theorem repr_second_char (u : Nat) (hu : 10 ≤ u) :
    ∃ a b rest, (toString u).toList = a :: b :: rest ∧ b ≠ '_' := by
  have hlen := toDigits_two_le u hu
  have hall : ∀ c ∈ Nat.toDigits 10 u, c ≠ '_' :=
    toDigitsCore_ne_underscore (u + 1) u [] (by simp)
  have e : (toString u).toList = Nat.toDigits 10 u := rfl
  rw [e]
  match hd : Nat.toDigits 10 u with
  | [] => rw [hd] at hlen; simp at hlen
  | [_] => rw [hd] at hlen; simp at hlen
  | a :: b :: rest =>
    refine ⟨a, b, rest, rfl, ?_⟩
    apply hall b
    rw [hd]; simp

theorem high_slot_name_chars (u : Nat) (hu : 10 ≤ u) (x : String) (hx : x ∈ slotNames u) :
    x.toList[0]? = some 'u' ∧ ∃ b, x.toList[8]? = some b ∧ b ≠ '_' := by
  obtain ⟨a, b, rest, hrepr, hb⟩ := repr_second_char u hu
  have hp : "users__".toList = ['u', 's', 'e', 'r', 's', '_', '_'] := by decide
  simp only [slotNames, List.mem_cons, List.mem_singleton, List.not_mem_nil, or_false] at hx
  rcases hx with rfl | rfl | rfl
  · have e : (userId u).toList = "users__".toList ++ (a :: b :: rest) ++ "__user_id".toList := by
      simp only [userId, String.toList, String.data_append, hrepr.symm]
    rw [e, hp]
    exact ⟨by simp, b, by simp, hb⟩
  · have e : (userPaidShare u).toList =
        "users__".toList ++ (a :: b :: rest) ++ "__paid_share".toList := by
      simp only [userPaidShare, String.toList, String.data_append, hrepr.symm]
    rw [e, hp]
    exact ⟨by simp, b, by simp, hb⟩
  · have e : (userOwedShare u).toList =
        "users__".toList ++ (a :: b :: rest) ++ "__owed_share".toList := by
      simp only [userOwedShare, String.toList, String.data_append, hrepr.symm]
    rw [e, hp]
    exact ⟨by simp, b, by simp, hb⟩

theorem recognized_chars : ∀ y ∈ recognized,
    y.toList[0]? ≠ some 'u' ∨ y.toList[8]? = some '_' := by
  decide

theorem high_slot_name_not_recognized (u : Nat) (hu : 10 ≤ u) (x : String)
    (hx : x ∈ slotNames u) : x ∉ recognized := by
  intro hmem
  obtain ⟨h0, b, h8, hb⟩ := high_slot_name_chars u hu x hx
  rcases recognized_chars x hmem with h | h
  · exact h h0
  · rw [h8] at h
    exact hb (Option.some.inj h)

/-! ## Columns that are not recognized -/

theorem fixedNames_subset_recognized : ∀ n ∈ fixedNames, n ∈ recognized := fun _ hn =>
  List.mem_append_left _ hn

theorem slotNames_subset_recognized (k : Nat) (hk : k < 10) :
    ∀ n ∈ slotNames k, n ∈ recognized := fun _ hn =>
  List.mem_append_right _ (List.mem_flatMap.2 ⟨k, List.mem_range.2 hk, hn⟩)

theorem slotCountUpTo_congr_recognized (hs1 hs2 : List String)
    (h : ∀ n ∈ recognized, n ∈ hs1 ↔ n ∈ hs2) :
    ∀ n, n ≤ 10 → slotCountUpTo hs1 n = slotCountUpTo hs2 n := by
  intro n
  induction n with
  | zero => intro _; rfl
  | succ n ih =>
    intro hn
    have hsub := slotNames_subset_recognized n (by omega)
    have e : slotSeen n hs1 ↔ slotSeen n hs2 := by
      unfold slotSeen
      rw [h _ (hsub _ (by simp [slotNames])), h _ (hsub _ (by simp [slotNames])),
        h _ (hsub _ (by simp [slotNames]))]
    simp only [slotCountUpTo, e, ih (by omega)]

theorem required_subset_recognized (hs : List String) : ∀ n ∈ required hs, n ∈ recognized := by
  intro n hn
  rcases List.mem_append.1 hn with h | h
  · exact fixedNames_subset_recognized n h
  · obtain ⟨k, hk, hnk⟩ := List.mem_flatMap.1 h
    have hk10 : k < 10 := by
      have := slotCount_le_ten hs
      have := List.mem_range.1 hk
      omega
    exact slotNames_subset_recognized k hk10 n hnk

theorem find_congr_on (l : List String) (p q : String → Bool) (h : ∀ x ∈ l, p x = q x) :
    l.find? p = l.find? q := by
  induction l with
  | nil => rfl
  | cons x l ih =>
    simp only [List.find?_cons, h x (by simp)]
    rw [ih (fun y hy => h y (List.mem_cons_of_mem _ hy))]

theorem headerIndexes_congr (hs1 hs2 : List String)
    (h : ∀ n ∈ recognized, lastPos n 0 0 hs1 = lastPos n 0 0 hs2) :
    headerIndexes hs1 = headerIndexes hs2 := by
  have hmem : ∀ n ∈ recognized, n ∈ hs1 ↔ n ∈ hs2 := by
    intro n hn
    rw [← not_iff_not, ← lastPos_eq_zero_iff, ← lastPos_eq_zero_iff, h n hn]
  have hcount : slotCount hs1 = slotCount hs2 :=
    slotCountUpTo_congr_recognized hs1 hs2 hmem 10 (Nat.le_refl 10)
  have hreq : required hs1 = required hs2 := by
    unfold required; rw [hcount]
  have hfind : (required hs1).find? (fun n => decide (n ∉ hs1)) =
      (required hs2).find? (fun n => decide (n ∉ hs2)) := by
    rw [hreq]
    apply find_congr_on
    intro n hn
    have := hmem n (required_subset_recognized hs2 n hn)
    simp only [this]
  have hres : resolved hs1 = resolved hs2 := by
    have hf := fun n hn => h n (fixedNames_subset_recognized n hn)
    simp only [resolved, hcount, hf _ (show groupId ∈ fixedNames by simp [fixedNames]),
      hf _ (show date ∈ fixedNames by simp [fixedNames]),
      hf _ (show cost ∈ fixedNames by simp [fixedNames]),
      hf _ (show currency ∈ fixedNames by simp [fixedNames]),
      hf _ (show categoryId ∈ fixedNames by simp [fixedNames]),
      hf _ (show description ∈ fixedNames by simp [fixedNames]),
      hf _ (show details ∈ fixedNames by simp [fixedNames])]
    congr 1
    apply List.map_congr_left
    intro k hk
    have hk10 : k < 10 := by
      have := slotCount_le_ten hs2
      have := List.mem_range.1 hk
      omega
    have hs := slotNames_subset_recognized k hk10
    simp only [slotOf, h _ (hs _ (show userId k ∈ slotNames k by simp [slotNames])),
      h _ (hs _ (show userPaidShare k ∈ slotNames k by simp [slotNames])),
      h _ (hs _ (show userOwedShare k ∈ slotNames k by simp [slotNames]))]
  rw [headerIndexes_eq, headerIndexes_eq, hfind, hres]

theorem lastPos_append (name : String) (a b : List String) : ∀ (init i : Nat),
    lastPos name init i (a ++ b) = lastPos name (lastPos name init i a) (i + a.length) b := by
  induction a with
  | nil => intro init i; rfl
  | cons h a ih =>
    intro init i
    have e : i + 1 + a.length = i + (a.length + 1) := by omega
    simp only [List.cons_append, lastPos, List.length_cons]
    rw [← e]
    exact ih _ _

theorem lastPos_insert_ne (name x : String) (a b : List String) (hx : x ≠ name) :
    lastPos name 0 0 (a ++ x :: b) =
      lastPos name (lastPos name 0 0 a) (0 + a.length + 1) b := by
  rw [lastPos_append, lastPos]
  simp [hx]

theorem find_required_congr_recognized (hs1 hs2 : List String)
    (hmem : ∀ n ∈ recognized, n ∈ hs1 ↔ n ∈ hs2) :
    slotCount hs1 = slotCount hs2 ∧
      (required hs1).find? (fun n => decide (n ∉ hs1)) =
        (required hs2).find? (fun n => decide (n ∉ hs2)) := by
  have hcount : slotCount hs1 = slotCount hs2 :=
    slotCountUpTo_congr_recognized hs1 hs2 hmem 10 (Nat.le_refl 10)
  have hreq : required hs1 = required hs2 := by
    unfold required; rw [hcount]
  refine ⟨hcount, ?_⟩
  rw [hreq]
  apply find_congr_on
  intro n hn
  have := hmem n (required_subset_recognized hs2 n hn)
  simp only [this]

/-- C17. The users sequence `readIndexes` builds never has more than ten elements. A header
name of the per-slot form with a slot index of ten or more is not recognized: appended to a
header row it changes nothing of the result of `readIndexes`; put anywhere in a header row it
has the effect any other unrecognized name has there; and the row with it resolves exactly when
the row without it does, with the same error message or the same number of user slots. -/
theorem ten_slot_bound (u : Nat) (name : String) (hu : 10 ≤ u) (hname : name ∈ slotNames u) :
    (∀ hs : List String, (scanUsers hs).length ≤ 10 ∧
        ∀ idxs, headerIndexes hs = .ok idxs → idxs.users.length ≤ 10) ∧
      (∀ hs : List String, headerIndexes (hs ++ [name]) = headerIndexes hs) ∧
      (∀ (a b : List String) (other : String), other ∉ recognized →
        headerIndexes (a ++ name :: b) = headerIndexes (a ++ other :: b)) ∧
      ∀ a b : List String,
        (∀ err, headerIndexes (a ++ name :: b) = .error err ↔
          headerIndexes (a ++ b) = .error err) ∧
          ∀ i1 i2, headerIndexes (a ++ name :: b) = .ok i1 → headerIndexes (a ++ b) = .ok i2 →
            i1.users.length = i2.users.length := by
  have hnot : name ∉ recognized := high_slot_name_not_recognized u hu name hname
  have hne : ∀ n ∈ recognized, name ≠ n := fun n hn e => hnot (e ▸ hn)
  refine ⟨?_, ?_, ?_, ?_⟩
  · intro hs
    have h1 : (scanUsers hs).length ≤ 10 := by
      rw [scanUsers_eq]
      simp only [List.length_map, List.length_range]
      exact slotCount_le_ten hs
    refine ⟨h1, ?_⟩
    intro idxs hres
    obtain ⟨rfl, _⟩ := resolved_of_ok hs idxs hres
    rw [length_resolved_users]
    exact slotCount_le_ten hs
  · intro hs
    apply headerIndexes_congr
    intro n hn
    rw [lastPos_append, lastPos, lastPos]
    simp [hne n hn]
  · intro a b other hother
    apply headerIndexes_congr
    intro n hn
    have h2 : other ≠ n := fun e => hother (e ▸ hn)
    rw [lastPos_insert_ne n name a b (hne n hn), lastPos_insert_ne n other a b h2]
  · intro a b
    have hmem : ∀ n ∈ recognized, n ∈ a ++ name :: b ↔ n ∈ a ++ b := by
      intro n hn
      have := hne n hn
      simp only [List.mem_append, List.mem_cons]
      constructor
      · rintro (h | h | h)
        · exact Or.inl h
        · exact absurd h.symm this
        · exact Or.inr h
      · rintro (h | h)
        · exact Or.inl h
        · exact Or.inr (Or.inr h)
    obtain ⟨hcount, hfind⟩ := find_required_congr_recognized _ _ hmem
    rw [headerIndexes_eq, headerIndexes_eq, hfind]
    cases (required (a ++ b)).find? (fun n => decide (n ∉ a ++ b)) with
    | some m => simp
    | none =>
      simp only [Except.ok.injEq, false_iff, not_false_eq_true, implies_true, true_and]
      refine ⟨by simp, ?_⟩
      intro i1 i2 h1 h2
      rw [← h1, ← h2, length_resolved_users, length_resolved_users, hcount]

theorem ten_slot_bound_witness :
    (∀ hs : List String, (scanUsers hs).length ≤ 10 ∧
        ∀ idxs, headerIndexes hs = .ok idxs → idxs.users.length ≤ 10) ∧
      (∀ hs : List String,
        headerIndexes (hs ++ ["users__10__user_id"]) = headerIndexes hs) ∧
      (∀ (a b : List String) (other : String), other ∉ recognized →
        headerIndexes (a ++ "users__10__user_id" :: b) = headerIndexes (a ++ other :: b)) ∧
      ∀ a b : List String,
        (∀ err, headerIndexes (a ++ "users__10__user_id" :: b) = .error err ↔
          headerIndexes (a ++ b) = .error err) ∧
          ∀ i1 i2, headerIndexes (a ++ "users__10__user_id" :: b) = .ok i1 →
            headerIndexes (a ++ b) = .ok i2 → i1.users.length = i2.users.length :=
  ten_slot_bound 10 "users__10__user_id" (by decide) (by decide)

end Csv
